import Mathlib

/-
Verification development for the text normalization and fuzzy matching
engine of a vendor-description mapping system.

Conventions of the shallow embedding:
- Text is represented as a list of characters (abbreviated Str below).
  Python string primitives (strip, split, lower, join) are embedded as
  structurally recursive functions on such lists.  The character classes
  mirror the ASCII behaviour of the Python regex classes backslash-w and
  backslash-s; the embedding is faithful for ASCII data (the lower and
  strip embeddings act as the Python ones do on ASCII text).
- Dictionaries are embedded as association lists in insertion order,
  dataframes as lists of records.
- The external fuzzywuzzy similarity scorers are not code of this
  repository; the matching functions are therefore parameterized over
  the three scorer functions, and concrete executable models of the
  three scorers (token-sort, best-contiguous-window, token-set) are
  provided for evaluating the matchers on concrete inputs.
-/

abbrev Str := List Char

/-- Coerce a string literal to the character-list representation. -/
def str (s : String) : Str := s.data

/-- Character class of the Python regex class backslash-s (ASCII whitespace). -/
def isSpaceChar (c : Char) : Bool :=
  decide (c.toNat = 32 ∨ c.toNat = 9 ∨ c.toNat = 10 ∨ c.toNat = 13 ∨
          c.toNat = 11 ∨ c.toNat = 12)

/-- Character class of the Python regex class backslash-w restricted to ASCII:
letters, digits and the underscore. -/
def isWordChar (c : Char) : Bool :=
  decide ((48 ≤ c.toNat ∧ c.toNat ≤ 57) ∨ (65 ≤ c.toNat ∧ c.toNat ≤ 90) ∨
          (97 ≤ c.toNat ∧ c.toNat ≤ 122) ∨ c.toNat = 95)

/-- Embedding of Python str.lower for ASCII characters. -/
def lowerChar (c : Char) : Char :=
  if 65 ≤ c.toNat ∧ c.toNat ≤ 90 then Char.ofNat (c.toNat + 32) else c

/-- Lowercase every character of a string. -/
def lowerAll (s : Str) : Str := s.map lowerChar

/-- Remove trailing whitespace, as Python str.rstrip does. -/
def stripTrailing : Str → Str
  | [] => []
  | c :: r =>
    let t := stripTrailing r
    if t.isEmpty && isSpaceChar c then [] else c :: t

/-- Embedding of Python str.strip with no argument (trim whitespace at
both ends). -/
def pyStrip (s : Str) : Str := stripTrailing (s.dropWhile isSpaceChar)

/-- Worker for pySplit, accumulating the current word in reverse. -/
def pySplitGo : Str → Str → List Str
  | cur, [] => if cur.isEmpty then [] else [cur.reverse]
  | cur, c :: rest =>
    if isSpaceChar c then
      if cur.isEmpty then pySplitGo [] rest else cur.reverse :: pySplitGo [] rest
    else pySplitGo (c :: cur) rest

/-- Embedding of Python str.split with no argument: split on whitespace
runs, dropping empty pieces. -/
def pySplit (s : Str) : List Str := pySplitGo [] s

/-- Join a list of strings with a single-space separator, as the Python
idiom of joining with a one-space string does. -/
def joinSpace : List Str → Str
  | [] => []
  | [w] => w
  | w :: ws => w ++ ' ' :: joinSpace ws

/-- Join a list of strings with an arbitrary separator string. -/
def joinWith (sep : Str) : List Str → Str
  | [] => []
  | [w] => w
  | w :: ws => w ++ sep ++ joinWith sep ws

/-- Worker for the one-pass collapse of whitespace runs; the flag records
whether the previous character was whitespace. -/
def collapseAux : Bool → Str → Str
  | _, [] => []
  | prevSpace, c :: rest =>
    if isSpaceChar c then
      if prevSpace then collapseAux true rest else ' ' :: collapseAux true rest
    else c :: collapseAux false rest

/-- Embedding of the regex substitution replacing every whitespace run by a
single space. -/
def collapseWs (s : Str) : Str := collapseAux false s

/-- Unicode NFD decomposition of a single character, modelling the library
call of clean_text on a representative table of accented Latin letters;
every ASCII character decomposes to itself, exactly as in full NFD. -/
def nfdChar (c : Char) : Str :=
  if c.toNat ≤ 127 then [c]
  else if c = 'á' then ['a', '\u0301'] else if c = 'é' then ['e', '\u0301']
  else if c = 'í' then ['i', '\u0301'] else if c = 'ó' then ['o', '\u0301']
  else if c = 'ú' then ['u', '\u0301'] else if c = 'ñ' then ['n', '\u0303']
  else if c = 'ü' then ['u', '\u0308'] else if c = 'Á' then ['A', '\u0301']
  else if c = 'É' then ['E', '\u0301'] else if c = 'Í' then ['I', '\u0301']
  else if c = 'Ó' then ['O', '\u0301'] else if c = 'Ú' then ['U', '\u0301']
  else if c = 'Ñ' then ['N', '\u0303'] else if c = 'Ü' then ['U', '\u0308']
  else [c]

/-- Replacement step of the clean_text regex pass: any character that is
neither a word character nor whitespace becomes a space. -/
def maskWS (c : Char) : Char :=
  if isWordChar c || isSpaceChar c then c else ' '

/-- Embedding of clean_text from ulits.py: NFD decomposition, drop of
non-ASCII code points, replacement of punctuation by spaces, collapse of
whitespace runs, trim, lowercase. -/
def clean_text (s : Str) : Str :=
  let t1 := (s.flatMap nfdChar).filter (fun c => decide (c.toNat ≤ 127))
  let t2 := t1.map maskWS
  let t3 := collapseWs t2
  lowerAll (pyStrip t3)

/-- Lexicographic strict order on character lists by code point, as Python
string comparison orders strings. -/
def lexLt : Str → Str → Bool
  | [], [] => false
  | [], _ :: _ => true
  | _ :: _, [] => false
  | a :: as, b :: bs =>
    if a.toNat < b.toNat then true
    else if b.toNat < a.toNat then false
    else lexLt as bs

/-- Insert a string into a lexicographically sorted list of strings. -/
def insertLex (x : Str) : List Str → List Str
  | [] => [x]
  | y :: ys => if lexLt x y then x :: y :: ys else y :: insertLex x ys

/-- Sort a list of strings lexicographically ascending, as Python sorted
does on strings. -/
def sortStrs (l : List Str) : List Str := l.foldr insertLex []

/-- Worker removing duplicates while keeping first occurrences; seen is the
set of strings already emitted. -/
def dedupFirstGo (seen : List Str) : List Str → List Str
  | [] => []
  | x :: xs =>
    if x ∈ seen then dedupFirstGo seen xs
    else x :: dedupFirstGo (x :: seen) xs

/-- Remove duplicates from a list of strings keeping first occurrences. -/
def dedupFirst (l : List Str) : List Str := dedupFirstGo [] l

/-- Lookup of a lowercased token in the synonym dictionary.  The Python code
builds a dict keyed by the lowercased originals, so a later pair whose
lowercased key collides with an earlier one overwrites it: the last pair
wins, which the reversed search models. -/
def synLookup (syns : List (Str × Str)) (k : Str) : Option Str :=
  ((syns.map (fun p => (lowerAll p.1, p.2))).reverse.find?
    (fun p => decide (p.1 = k))).map (fun p => p.2)

/-- Folding step of apply_synonyms over the whitespace-split tokens,
accumulating replaced words and the audit list of applied pairs. -/
def synStep (syns : List (Str × Str)) (acc : List Str × List (Str × Str))
    (w : Str) : List Str × List (Str × Str) :=
  match synLookup syns (lowerAll w) with
  | some rep => (acc.1 ++ [rep], acc.2 ++ [(w, rep)])
  | none => (acc.1 ++ [w], acc.2)

/-- Embedding of apply_synonyms from ulits.py: split on whitespace, replace
each token with a case-insensitive dictionary hit, track every applied
pair, rejoin with single spaces. -/
def apply_synonyms (t : Str) (syns : List (Str × Str)) :
    Str × List (Str × Str) :=
  let p := (pySplit t).foldl (synStep syns) ([], [])
  (joinSpace p.1, p.2)

/-- Single-token substitution: the replacement a token receives in one
synonym pass, or the token itself on a miss. -/
def substOne (syns : List (Str × Str)) (w : Str) : Str :=
  (synLookup syns (lowerAll w)).getD w

/-- Audit entry a single token contributes in one synonym pass. -/
def auditOne (syns : List (Str × Str)) (w : Str) : Option (Str × Str) :=
  (synLookup syns (lowerAll w)).map (fun r => (w, r))

/-- Word-character test at an index of a string; out-of-range counts as a
non-word position, as the regex word-boundary assertion treats the ends. -/
def wordAt (t : Str) (k : Nat) : Bool :=
  match t.get? k with
  | some c => isWordChar c
  | none => false

/-- Word-boundary assertion of the regex engine between positions k-1 and k
of the text. -/
def boundaryAt (t : Str) (k : Nat) : Bool :=
  (if k = 0 then false else wordAt t (k - 1)) != wordAt t k

/-- Case-insensitive whole-word match of the phrase at position i of the
text: the pattern built by remove_blacklist is the escaped phrase wrapped
in word-boundary assertions, compiled with the ignore-case flag. -/
def ww_match_at (pc t : Str) (i : Nat) : Bool :=
  decide (i + pc.length ≤ t.length) &&
  decide (lowerAll ((t.drop i).take pc.length) = lowerAll pc) &&
  boundaryAt t i && boundaryAt t (i + pc.length)

/-- Case-insensitive search for a whole-word occurrence of the phrase
anywhere in the text, as re.search with the ignore-case flag reports. -/
def ww_search (pc t : Str) : Bool :=
  (List.range (t.length + 1)).any (fun i => ww_match_at pc t i)

/-- Worker scanning match positions left to right, skipping past each
match as re.sub does for non-overlapping replacement; the fuel bounds the
scan length. -/
def wwPositionsGo (pc t : Str) : Nat → Nat → List Nat
  | _, 0 => []
  | i, fuel + 1 =>
    if i + pc.length > t.length then []
    else if ww_match_at pc t i then
      i :: wwPositionsGo pc t (i + pc.length) fuel
    else wwPositionsGo pc t (i + 1) fuel

/-- Positions of the non-overlapping leftmost whole-word matches of the
phrase in the text. -/
def wwPositions (pc t : Str) : List Nat :=
  wwPositionsGo pc t 0 (t.length + 1)

/-- Embedding of re.sub replacing every non-overlapping whole-word
occurrence of the phrase by the empty string. -/
def ww_sub_all (pc t : Str) : Str :=
  let ps := wwPositions pc t
  t.enum.filterMap (fun kc =>
    if ps.any (fun p => decide (p ≤ kc.1 ∧ kc.1 < p + pc.length)) then none
    else some kc.2)

/-- Descending order on the length of the trimmed phrase, the sort key of
remove_blacklist. -/
def descTrimLen (a b : Str) : Prop :=
  (pyStrip b).length ≤ (pyStrip a).length

instance : DecidableRel descTrimLen :=
  fun a b => inferInstanceAs (Decidable (_ ≤ _))

instance : IsTotal Str descTrimLen :=
  ⟨fun a b => Nat.le_total (pyStrip b).length (pyStrip a).length⟩

instance : IsTrans Str descTrimLen :=
  ⟨fun _ _ _ h h' => Nat.le_trans h' h⟩

/-- Stable sort of the blacklist by descending trimmed length, as the
Python stable sort with the negated-length key produces. -/
def sortDescTrim (bl : List Str) : List Str := List.insertionSort descTrimLen bl

/-- Folding step of remove_blacklist over the sorted phrases: skip blank
phrases, and when a whole-word occurrence exists record the trimmed phrase
and delete every occurrence from the working text. -/
def rbStep (acc : Str × List Str) (phrase : Str) : Str × List Str :=
  let pc := pyStrip phrase
  if pc.isEmpty then acc
  else if ww_search pc acc.1 then (ww_sub_all pc acc.1, acc.2 ++ [pc])
  else acc

/-- Embedding of remove_blacklist from ulits.py: process phrases in order
of descending trimmed length, remove whole-word occurrences of found
phrases, audit them, and re-collapse whitespace at the end. -/
def remove_blacklist (t : Str) (bl : List Str) : Str × List Str :=
  let p := (sortDescTrim bl).foldl rbStep (t, [])
  (joinSpace (pySplit (pyStrip p.1)), p.2)

/-- Worker for the maximal word-character runs of a string, accumulating
the current run in reverse. -/
def wordRunsGo : Str → Str → List Str
  | cur, [] => if cur.isEmpty then [] else [cur.reverse]
  | cur, c :: rest =>
    if isWordChar c then wordRunsGo (c :: cur) rest
    else if cur.isEmpty then wordRunsGo [] rest
    else cur.reverse :: wordRunsGo [] rest

/-- Maximal runs of word characters of a string, the matches the regex
finding word runs returns. -/
def wordRuns (s : Str) : List Str := wordRunsGo [] s

/-- Worker of extract_words: keep a word when it is unseen and longer than
one character, exactly as the source loop guards its append. -/
def extractGo (seen : List Str) : List Str → List Str
  | [] => []
  | w :: ws =>
    if w ∉ seen ∧ w.length > 1 then w :: extractGo (w :: seen) ws
    else extractGo seen ws

/-- Embedding of extract_words from ulits.py: lowercase, take the word
runs, drop single characters and duplicates keeping first occurrences. -/
def extract_words (t : Str) : List Str := extractGo [] (wordRuns (lowerAll t))

/-- Round half to even of the fraction num over den, as Python round does;
den is expected positive. -/
def roundHE (num den : Nat) : Nat :=
  let q := num / den
  let r := num % den
  if 2 * r < den then q
  else if den < 2 * r then q + 1
  else if q % 2 = 0 then q else q + 1

/-- Row update of the longest-common-subsequence table: walks the second
string together with the tail of the previous row, carrying the diagonal
and left cells. -/
def lcsRowGo (ca : Char) : Str → List Nat → Nat → Nat → List Nat
  | [], _, _, _ => []
  | cb :: bs, prevTail, diag, left =>
    let up := prevTail.headD 0
    let cur := if ca = cb then diag + 1 else max left up
    cur :: lcsRowGo ca bs (prevTail.drop 1) up cur

/-- Length of a longest common subsequence of two strings by the standard
dynamic program. -/
def lcs (a b : Str) : Nat :=
  let init := List.replicate (b.length + 1) 0
  let fin := a.foldl (fun row ca => 0 :: lcsRowGo ca b (row.drop 1) (row.headD 0) 0) init
  fin.getLastD 0

/-- Model of the basic fuzzywuzzy similarity of two strings: one hundred
times the normalized indel similarity, rounded half to even, with the
empty pair scoring one hundred.  The indel-distance form equals twice the
longest common subsequence over the total length. -/
def fuzzBase (a b : Str) : Nat :=
  if a.isEmpty && b.isEmpty then 100
  else roundHE (200 * lcs a b) (a.length + b.length)

/-- Model of the fuzzywuzzy full_process step: drop non-ASCII code points,
replace every non-word character (whitespace included) by a space,
lowercase, trim. -/
def fullProcess (s : Str) : Str :=
  pyStrip (lowerAll ((s.filter (fun c => decide (c.toNat ≤ 127))).map
    (fun c => if isWordChar c then c else ' ')))

/-- Model of the token-sort preprocessing: process, split into tokens,
sort them, rejoin with single spaces. -/
def processAndSort (s : Str) : Str :=
  joinSpace (sortStrs (pySplit (fullProcess s)))

/-- Model of the first similarity scorer (token-sort): compare the
processed strings after sorting their tokens. -/
def token_sort_score (a b : Str) : Nat :=
  fuzzBase (processAndSort a) (processAndSort b)

/-- Scores of every window of the longer string with the length of the
shorter one. -/
def windowScores (sh lo : Str) : List Nat :=
  (List.range (lo.length - sh.length + 1)).map
    (fun i => fuzzBase sh ((lo.drop i).take sh.length))

/-- Model of the second similarity scorer (best contiguous substring): the
best score of the shorter processed string against any window of the
longer one of the same length. -/
def part_ratio_score (a b : Str) : Nat :=
  let p1 := fullProcess a
  let p2 := fullProcess b
  let sh := if p1.length ≤ p2.length then p1 else p2
  let lo := if p1.length ≤ p2.length then p2 else p1
  (windowScores sh lo).foldl max 0

/-- Model of the third similarity scorer (token-set): compare the sorted
token intersection against each side extended with its own remainder, and
both extended sides against each other, keeping the best score. -/
def token_set_score (a b : Str) : Nat :=
  let t1 := dedupFirst (pySplit (fullProcess a))
  let t2 := dedupFirst (pySplit (fullProcess b))
  let inter := sortStrs (t1.filter (fun w => decide (w ∈ t2)))
  let d12 := sortStrs (t1.filter (fun w => decide (w ∉ t2)))
  let d21 := sortStrs (t2.filter (fun w => decide (w ∉ t1)))
  let s0 := joinSpace inter
  let s1 := joinSpace (inter ++ d12)
  let s2 := joinSpace (inter ++ d21)
  max (max (fuzzBase s0 s1) (fuzzBase s0 s2)) (fuzzBase s1 s2)

/-- Model of the library extractOne: score every choice and keep the first
one attaining the maximal score; the empty choice list yields none, the
case in which the source call raises and the caller returns its empty
result. -/
def extractOne (sc : Str → Str → Nat) (q : Str) (choices : List Str) :
    Option (Str × Nat) :=
  choices.foldl (fun best c =>
    match best with
    | none => some (c, sc q c)
    | some (bc, bs) => if sc q c > bs then some (c, sc q c) else some (bc, bs))
    none

/-- Trace of one run of the three-scorer escalation cascade shared by
intelligent_fuzzy_match and the row matcher: the final pick, the pick
after the second stage, and whether the fallback stages ran. -/
structure CascadeOut where
  best : Str
  score : Nat
  bestB : Str
  scoreB : Nat
  ranB : Bool
  ranC : Bool
  deriving Repr, DecidableEq

/-- Escalation cascade of the matchers: scorer A picks a best entry; when
its score is below seventy, scorer B may replace the pick on a strictly
greater score; when the running score is still below eighty, scorer C may
replace it on a strictly greater score. -/
def cascade (scA scB scC : Str → Str → Nat) (q : Str) (choices : List Str) :
    CascadeOut :=
  match extractOne scA q choices with
  | none => ⟨[], 0, [], 0, false, false⟩
  | some (m0, s0) =>
    let pB :=
      if s0 < 70 then
        match extractOne scB q choices with
        | some (m1, s1) => if s1 > s0 then (m1, s1) else (m0, s0)
        | none => (m0, s0)
      else (m0, s0)
    let pC :=
      if pB.2 < 80 then
        match extractOne scC q choices with
        | some (m2, s2) => if s2 > pB.2 then (m2, s2) else pB
        | none => pB
      else pB
    ⟨pC.1, pC.2, pB.1, pB.2, decide (s0 < 70), decide (pB.2 < 80)⟩

/-- Match result record; the fields carry the keys of the result dicts of
both matchers (the batch matcher names them match, similarity, matched,
missing and so on, the row matcher best_match, matched_words,
missing_words). -/
structure MatchOut where
  best_match : Str
  similarity : Nat
  matched_words : Str
  missing_words : Str
  catalog_id : Str
  categoria : Str
  variedad : Str
  color : Str
  grado : Str
  deriving Repr, DecidableEq

/-- Empty match result, all fields empty or zero. -/
def empty_match_result : MatchOut := ⟨[], 0, [], [], [], [], [], [], []⟩

/-- Catalog entry as the batch matcher sees the catalog dataframe: the
four attribute columns, the identifier column, and the computed search
key column.  The identifier models column five of the six-column catalog
schema the persistence layer uses. -/
structure LEntry where
  categoria : Str
  variedad : Str
  color : Str
  grado : Str
  catalog_id : Str
  skey : Str
  deriving Repr, DecidableEq

/-- Sorted space-joined intersection of the deduplicated words of the
input and of the best match, the matched-words diagnostic of both
matchers. -/
def matchedWordsOf (input best : Str) : Str :=
  joinSpace (sortStrs ((extract_words input).filter
    (fun w => decide (w ∈ extract_words best))))

/-- Sorted space-joined difference of the deduplicated words of the input
against the best match, the missing-words diagnostic of both matchers. -/
def missingWordsOf (input best : Str) : Str :=
  joinSpace (sortStrs ((extract_words input).filter
    (fun w => decide (w ∉ extract_words best))))

/-- Embedding of intelligent_fuzzy_match from logic.py: run the cascade
over the search keys, compute the word-overlap diagnostics, and copy the
attribute fields of the first catalog row whose search key equals the
final pick; with an empty catalog the source call raises inside the try
block and the handler returns the empty result. -/
def intelligent_fuzzy_match (scA scB scC : Str → Str → Nat) (input : Str)
    (entries : List LEntry) : MatchOut :=
  let choices := entries.map (fun e => e.skey)
  if choices.isEmpty then empty_match_result
  else
    let co := cascade scA scB scC input choices
    match entries.find? (fun e => decide (e.skey = co.best)) with
    | some e =>
      ⟨co.best, co.score, matchedWordsOf input co.best,
       missingWordsOf input co.best, e.catalog_id, e.categoria, e.variedad,
       e.color, e.grado⟩
    | none =>
      ⟨co.best, co.score, matchedWordsOf input co.best,
       missingWordsOf input co.best, [], [], [], [], []⟩

/-- Catalog entry as the row processor formats its catalog cache. -/
structure REntry where
  search_key : Str
  categoria : Str
  variedad : Str
  color : Str
  grado : Str
  catalog_id : Str
  deriving Repr, DecidableEq

/-- Embedding of the row matcher of row_backend.py (source name with a
leading underscore): guard empty input and empty catalog, run the cascade
over the non-empty search keys, and copy the fields of the first catalog
item whose search key equals the final pick. -/
def perform_fuzzy_matching (scA scB scC : Str → Str → Nat) (input : Str)
    (catalog : List REntry) : MatchOut :=
  if (pyStrip input).isEmpty || catalog.isEmpty then empty_match_result
  else
    let keys := (catalog.map (fun e => e.search_key)).filter
      (fun k => !k.isEmpty)
    if keys.isEmpty then empty_match_result
    else
      let co := cascade scA scB scC input keys
      match catalog.find? (fun e => decide (e.search_key = co.best)) with
      | none => empty_match_result
      | some e =>
        ⟨co.best, co.score, matchedWordsOf input co.best,
         missingWordsOf input co.best, e.catalog_id, e.categoria, e.variedad,
         e.color, e.grado⟩

/-- Worker of the batch matching loop of perform_enhanced_matching: walk
the cleaned inputs carrying the cache, emit none for the duplicate
sentinel and the cached or freshly computed result otherwise, and record
every input the matcher is actually invoked on. -/
def pemGo (f : Str → MatchOut) :
    List Str → List (Str × MatchOut) → List (Option MatchOut) × List Str
  | [], _ => ([], [])
  | s :: rest, cache =>
    if s = str "NN" then
      let p := pemGo f rest cache
      (none :: p.1, p.2)
    else
      match cache.find? (fun q => decide (q.1 = s)) with
      | some q =>
        let p := pemGo f rest cache
        (some q.2 :: p.1, p.2)
      | none =>
        let r := f s
        let p := pemGo f rest (cache ++ [(s, r)])
        (some r :: p.1, s :: p.2)

/-- Embedding of perform_enhanced_matching from logic.py: the memoized
batch matching loop starting from an empty cache; the first component
holds one entry per input row (none renders the duplicate sentinel
columns), the second the list of matcher invocations. -/
def perform_enhanced_matching (f : Str → MatchOut) (inputs : List Str) :
    List (Option MatchOut) × List Str :=
  pemGo f inputs []

/-- Naive batch matcher the spec compares the memoized one against: score
each row independently, skipping only the duplicate sentinel. -/
def naive_matching (f : Str → MatchOut) (inputs : List Str) :
    List (Option MatchOut) :=
  inputs.map (fun s => if s = str "NN" then none else some (f s))

/-- Input row of the batch orchestrator: the description column and the
vendor column (columns zero and two of the main dataframe). -/
structure InRow where
  desc : Str
  vendor : Str
  deriving Repr, DecidableEq

/-- Duplicate key as process_files computes it: trimmed lowercased
description, a bar, trimmed lowercased vendor. -/
def dupKeyCode (r : InRow) : Str :=
  lowerAll (pyStrip r.desc) ++ '|' :: lowerAll (pyStrip r.vendor)

/-- Modelled from the spec: the DuplicateKey formula as the specification
states it, lowercased description, a bar, lowercased vendor, with no
trimming. -/
def dupKeySpec (r : InRow) : Str :=
  lowerAll r.desc ++ '|' :: lowerAll r.vendor

/-- Worker marking duplicate rows: a key already seen is a duplicate,
otherwise it is recorded as seen. -/
def markDupGo (seen : List Str) : List Str → List Bool
  | [] => []
  | k :: ks =>
    if k ∈ seen then true :: markDupGo seen ks
    else false :: markDupGo (k :: seen) ks

/-- Duplicate flags of a key list in original order: the first row bearing
a key is primary, later bearers are duplicates. -/
def markDup (keys : List Str) : List Bool := markDupGo [] keys

/-- Format of the applied-synonyms column: the applied pairs joined as
original, arrow, replacement, separated by comma and space. -/
def fmtSyn (ap : List (Str × Str)) : Str :=
  joinWith (str ", ") (ap.map (fun p => p.1 ++ '→' :: p.2))

/-- Text pipeline of one primary row of process_files: clean, apply
synonyms, remove blacklisted phrases, trim; the second and third
components are the audit columns as formatted. -/
def rowPipeline (syns : List (Str × Str)) (bl : List Str) (d : Str) :
    Str × Str × Str :=
  let c0 := clean_text d
  let p1 := apply_synonyms c0 syns
  let p2 := remove_blacklist p1.1 bl
  (pyStrip p2.1, fmtSyn p1.2, joinSpace p2.2)

/-- Catalog row of the batch path, carrying the four attribute columns and
the identifier column of the six-column catalog schema. -/
structure CatRow where
  categoria : Str
  variedad : Str
  color : Str
  grado : Str
  catalog_id : Str
  deriving Repr, DecidableEq

/-- Search key construction of process_files: join the four attribute
columns with spaces, trim, clean. -/
def mk_search_key (e : CatRow) : Str :=
  clean_text (pyStrip (joinWith (str " ")
    [e.categoria, e.variedad, e.color, e.grado]))

/-- View of a catalog row as the batch matcher receives it, with the
computed search key column. -/
def toLEntry (e : CatRow) : LEntry :=
  ⟨e.categoria, e.variedad, e.color, e.grado, e.catalog_id, mk_search_key e⟩

/-- Output of the batch orchestrator model: the cleaned-input column, the
two audit columns, the per-row match results (none renders the duplicate
sentinel), and the matcher invocation log. -/
structure ProcOut where
  cleaned : List Str
  applied : List Str
  removedW : List Str
  results : List (Option MatchOut)
  calls : List Str
  deriving Repr, DecidableEq

/-- Embedding of the duplicate-handling core of process_files from
logic.py: compute duplicate keys in row order, mark later bearers of a
seen key, run the text pipeline on primary rows only (duplicates get the
sentinel cleaned input and empty audit columns), and batch-match the
cleaned inputs through the memoized matcher. -/
def process_files (scA scB scC : Str → Str → Nat) (rows : List InRow)
    (syns : List (Str × Str)) (bl : List Str) (catalog : List CatRow) :
    ProcOut :=
  let keys := rows.map dupKeyCode
  let dflags := markDup keys
  let trip := (rows.zip dflags).map (fun rd =>
    if rd.2 then (str "NN", ([] : Str), ([] : Str))
    else rowPipeline syns bl rd.1.desc)
  let inputs := trip.map (fun x => x.1)
  let entries := catalog.map toLEntry
  let mr := perform_enhanced_matching
    (fun s => intelligent_fuzzy_match scA scB scC s entries) inputs
  ⟨inputs, trip.map (fun x => x.2.1), trip.map (fun x => x.2.2), mr.1, mr.2⟩

/-- Row indices process_files persists to the external store: the save
step filters out the rows whose cleaned input is the duplicate
sentinel. -/
def persisted_indices (po : ProcOut) : List Nat :=
  (List.range po.cleaned.length).filter
    (fun i => decide (po.cleaned.get? i ≠ some (str "NN")))

/-- Rule set of one tenant: the synonym pairs and the blacklist phrases in
insertion order. -/
structure RuleSet where
  synonyms : List (Str × Str)
  blacklist : List Str
  deriving Repr, DecidableEq

/-- External world of the row processor: the persisted rule set, failure
switches for the rule-store read and write operations, the catalog rows,
and the clock value the update timestamp receives. -/
structure World where
  rules : RuleSet
  readFails : Bool
  writeFails : Bool
  catalog : List REntry
  now : Nat
  deriving Repr, DecidableEq

/-- Embedding of get_client_synonyms_blacklist from backend.py: a read
failure is caught inside the function, which then returns the empty rule
set instead of raising. -/
def get_client_synonyms_blacklist (w : World) : RuleSet :=
  if w.readFails then ⟨[], []⟩ else w.rules

/-- Embedding of update_client_synonyms_blacklist from backend.py: replace
the full rule set; a write failure is caught inside the function, which
then reports false and leaves the store unchanged. -/
def update_client_synonyms_blacklist (w : World) (syns : List (Str × Str))
    (bl : List Str) : World × Bool :=
  if w.writeFails then (w, false)
  else ({w with rules := ⟨syns, bl⟩}, true)

/-- Assignment into a dict embedded as an association list: replace the
value of an existing key in place, append a new key at the end, matching
Python dict update order. -/
def dictSet (d : List (Str × Str)) (k v : Str) : List (Str × Str) :=
  if d.any (fun p => decide (p.1 = k)) then
    d.map (fun p => if p.1 = k then (k, v) else p)
  else d ++ [(k, v)]

/-- Split at the first colon, as the Python one-split on a colon does on a
word known to contain one. -/
def splitColon1 (w : Str) : Str × Str :=
  (w.takeWhile (fun c => decide (c ≠ ':')),
   (w.dropWhile (fun c => decide (c ≠ ':'))).drop 1)

/-- Strip leading and trailing double-quote characters, as the Python
strip with a quote argument does. -/
def stripQuotes (s : Str) : Str :=
  ((s.dropWhile (fun c => decide (c = '"'))).reverse.dropWhile
    (fun c => decide (c = '"'))).reverse

/-- Input row of the row processor with the enrichment fields the
reprocessing step overwrites. -/
structure Row where
  vendor_product_description : Str
  action : Str
  word : Str
  cleaned_input : Str
  applied_synonyms : Str
  removed_blacklist_words : Str
  best_match : Str
  similarity_percentage : Nat
  matched_words : Str
  missing_words : Str
  catalog_id : Str
  categoria : Str
  variedad : Str
  color : Str
  grado : Str
  updated_at : Nat
  deriving Repr, DecidableEq

/-- Embedding of the rule-mutation helper of row_backend.py (source name
with a leading underscore): parse the action and word annotation of the
row, merge the new synonym pair or blacklist word into the current rules,
and write the merged set back through the full-replace store operation,
reporting its success flag. -/
def update_synonyms_blacklist_from_row (w : World) (row : Row) :
    World × Bool :=
  let action := lowerAll (pyStrip row.action)
  let word := pyStrip row.word
  if action.isEmpty || word.isEmpty then (w, true)
  else
    let current := get_client_synonyms_blacklist w
    if action = str "synonym" ∧ ':' ∈ word then
      let ps := splitColon1 word
      let original := stripQuotes (pyStrip ps.1)
      let replacement := stripQuotes (pyStrip ps.2)
      if ¬original.isEmpty ∧ ¬replacement.isEmpty then
        update_client_synonyms_blacklist w
          (dictSet current.synonyms original replacement) current.blacklist
      else (w, true)
    else if action = str "blacklist" then
      if word ∉ current.blacklist then
        update_client_synonyms_blacklist w current.synonyms
          (current.blacklist ++ [word])
      else (w, true)
    else (w, true)

/-- Embedding of the catalog fetch of the row processor on the successful
read path: the formatted catalog rows of the world. -/
def get_catalog_data (w : World) : List REntry := w.catalog

/-- Result of one reprocessing run: the world after any rule mutation, the
success flag, the returned row, and whether the matcher ran. -/
structure ReprocOut where
  world : World
  success : Bool
  row : Row
  matcherCalled : Bool
  deriving Repr, DecidableEq

/-- Embedding of reprocess_single_row from row_backend.py: optionally
apply the annotation-driven rule mutation (its success flag is ignored by
the source), re-read the rules, fail on a blank description returning the
row unchanged, otherwise run the full pipeline and matcher and overwrite
the enrichment fields. -/
def reprocess_single_row (scA scB scC : Str → Str → Nat) (w : World)
    (row : Row) (update_flag : Bool) : ReprocOut :=
  let w1 := if update_flag then (update_synonyms_blacklist_from_row w row).1
            else w
  let rules := get_client_synonyms_blacklist w1
  if (pyStrip row.vendor_product_description).isEmpty then
    ⟨w1, false, row, false⟩
  else
    let cleaned := clean_text row.vendor_product_description
    let p1 := apply_synonyms cleaned rules.synonyms
    let p2 := remove_blacklist p1.1 rules.blacklist
    let catalog := get_catalog_data w1
    let mr := perform_fuzzy_matching scA scB scC p2.1 catalog
    ⟨w1, true,
     {row with
       cleaned_input := p2.1,
       applied_synonyms := fmtSyn p1.2,
       removed_blacklist_words := joinSpace p2.2,
       best_match := mr.best_match,
       similarity_percentage := mr.similarity,
       matched_words := mr.matched_words,
       missing_words := mr.missing_words,
       catalog_id := mr.catalog_id,
       categoria := mr.categoria,
       variedad := mr.variedad,
       color := mr.color,
       grado := mr.grado,
       updated_at := w.now},
     true⟩

/-- Embedding of the cache-reuse guard of the catalog fetch of
row_backend.py: the cached catalog is reused when no refresh is forced,
the cache and its timestamp exist, and the seconds attribute of the
elapsed timedelta is below the TTL of three hundred; for a nonnegative
whole-second elapsed time that attribute is the remainder modulo the
86400 seconds of a day. -/
def catalog_cache_reused (force_refresh hasCache hasTimestamp : Bool)
    (elapsed : Nat) : Bool :=
  !force_refresh && hasCache && hasTimestamp && decide (elapsed % 86400 < 300)

/-- Absence of two adjacent whitespace characters in a string. -/
def noTwo : Str → Bool
  | [] => true
  | [_] => true
  | a :: b :: r => (!(isSpaceChar a && isSpaceChar b)) && noTwo (b :: r)

/-- Head of the string, when present, is not whitespace. -/
def headNS : Str → Bool
  | [] => true
  | c :: _ => !isSpaceChar c

/-- Last character of the string, when present, is not whitespace. -/
def lastNS (l : Str) : Bool :=
  match l.getLast? with
  | some c => !isSpaceChar c
  | none => true

/- Theorems.  The development below settles the claims about the
embedded program; each claim theorem carries its claim identifier. -/

theorem charOfNat_toNat {n : Nat} (h : n < 0xd800) :
    (Char.ofNat n).toNat = n := by
  have hv : n.isValidChar := Or.inl h
  rw [Char.ofNat, dif_pos hv]
  rfl

theorem lowerChar_toNat_of_upper {c : Char} (h1 : 65 ≤ c.toNat)
    (h2 : c.toNat ≤ 90) : (lowerChar c).toNat = c.toNat + 32 := by
  rw [lowerChar, if_pos ⟨h1, h2⟩]
  exact charOfNat_toNat (by omega)

theorem lowerChar_eq_self {c : Char} (h : ¬(65 ≤ c.toNat ∧ c.toNat ≤ 90)) :
    lowerChar c = c := by
  simp only [lowerChar, if_neg h]

theorem lowerChar_idem (c : Char) : lowerChar (lowerChar c) = lowerChar c := by
  by_cases h : 65 ≤ c.toNat ∧ c.toNat ≤ 90
  · have h1 : (lowerChar c).toNat = c.toNat + 32 :=
      lowerChar_toNat_of_upper h.1 h.2
    exact lowerChar_eq_self (by omega)
  · rw [lowerChar_eq_self h]
    exact lowerChar_eq_self h

theorem lowerChar_toNat_le {c : Char} (h : c.toNat ≤ 127) :
    (lowerChar c).toNat ≤ 127 := by
  by_cases hu : 65 ≤ c.toNat ∧ c.toNat ≤ 90
  · rw [lowerChar_toNat_of_upper hu.1 hu.2]; omega
  · rw [lowerChar_eq_self hu]; exact h

theorem isSpaceChar_lowerChar (c : Char) :
    isSpaceChar (lowerChar c) = isSpaceChar c := by
  by_cases h : 65 ≤ c.toNat ∧ c.toNat ≤ 90
  · have h1 : (lowerChar c).toNat = c.toNat + 32 :=
      lowerChar_toNat_of_upper h.1 h.2
    simp only [isSpaceChar, h1, decide_eq_decide]
    omega
  · rw [lowerChar_eq_self h]

theorem isWordChar_lowerChar (c : Char) :
    isWordChar (lowerChar c) = isWordChar c := by
  by_cases h : 65 ≤ c.toNat ∧ c.toNat ≤ 90
  · have h1 : (lowerChar c).toNat = c.toNat + 32 :=
      lowerChar_toNat_of_upper h.1 h.2
    simp only [isWordChar, h1, decide_eq_decide]
    omega
  · rw [lowerChar_eq_self h]

theorem word_not_space {c : Char} (h : isWordChar c = true) :
    isSpaceChar c = false := by
  simp only [isWordChar, decide_eq_true_eq] at h
  simp only [isSpaceChar, decide_eq_false_iff_not]
  omega

theorem lowerChar_blank : lowerChar ' ' = ' ' := by decide

theorem space_toNat_le {c : Char} (h : isSpaceChar c = true) : c.toNat ≤ 127 := by
  simp only [isSpaceChar, decide_eq_true_eq] at h
  omega

theorem mapIdOf {f : Char → Char} :
    ∀ l : Str, (∀ a ∈ l, f a = a) → l.map f = l := by
  intro l h
  induction l with
  | nil => rfl
  | cons a r ih =>
    simp only [List.map_cons, h a (by simp)]
    rw [ih (fun b hb => h b (by simp [hb]))]

theorem flatMapSingleton {g : Char → Str} :
    ∀ l : Str, (∀ a ∈ l, g a = [a]) → l.flatMap g = l := by
  intro l h
  induction l with
  | nil => rfl
  | cons a r ih =>
    simp only [List.flatMap_cons, h a (by simp)]
    rw [ih (fun b hb => h b (by simp [hb]))]
    rfl

theorem filterSelf {p : Char → Bool} :
    ∀ l : Str, (∀ a ∈ l, p a = true) → l.filter p = l := by
  intro l h
  induction l with
  | nil => rfl
  | cons a r ih =>
    rw [List.filter_cons_of_pos (h a (by simp))]
    rw [ih (fun b hb => h b (by simp [hb]))]

theorem noTwo_cons {a : Char} {l : Str} (h : noTwo (a :: l) = true) :
    noTwo l = true := by
  cases l with
  | nil => rfl
  | cons b r =>
    simp only [noTwo, Bool.and_eq_true] at h
    exact h.2

theorem noTwo_pair {a b : Char} {l : Str} (h : noTwo (a :: b :: l) = true) :
    isSpaceChar a = false ∨ isSpaceChar b = false := by
  simp only [noTwo, Bool.and_eq_true] at h
  simpa using h.1

theorem noTwo_cons_intro {a : Char} {l : Str}
    (h1 : isSpaceChar a = false ∨ headNS l = true) (h2 : noTwo l = true) :
    noTwo (a :: l) = true := by
  cases l with
  | nil => rfl
  | cons b r =>
    simp only [noTwo, Bool.and_eq_true]
    refine ⟨?_, h2⟩
    rcases h1 with h1 | h1
    · simp [h1]
    · have h1' : isSpaceChar b = false := by simpa [headNS] using h1
      simp [h1']

theorem headNS_of_noTwo_space {a : Char} {l : Str}
    (h : noTwo (a :: l) = true) (hs : isSpaceChar a = true) :
    headNS l = true := by
  cases l with
  | nil => rfl
  | cons b r =>
    have := noTwo_pair h
    simp only [headNS]
    rw [hs] at this
    simpa using this

theorem stripTrailing_head {r : Str} {d : Char} {t : Str}
    (h : stripTrailing r = d :: t) : ∃ r', r = d :: r' := by
  cases r with
  | nil => simp [stripTrailing] at h
  | cons x r' =>
    simp only [stripTrailing] at h
    by_cases hc : (stripTrailing r').isEmpty && isSpaceChar x
    · rw [if_pos hc] at h; cases h
    · rw [if_neg hc] at h
      exact ⟨r', by rw [← (List.cons.injEq ..).mp h |>.1]⟩

theorem mem_stripTrailing {c : Char} :
    ∀ {l : Str}, c ∈ stripTrailing l → c ∈ l := by
  intro l
  induction l with
  | nil => simp [stripTrailing]
  | cons a r ih =>
    simp only [stripTrailing]
    by_cases hc : (stripTrailing r).isEmpty && isSpaceChar a
    · rw [if_pos hc]; simp
    · rw [if_neg hc]
      intro h
      rcases List.mem_cons.mp h with h | h
      · simp [h]
      · simp [ih h]

theorem noTwo_stripTrailing :
    ∀ {l : Str}, noTwo l = true → noTwo (stripTrailing l) = true := by
  intro l
  induction l with
  | nil => intro _; rfl
  | cons a r ih =>
    intro h
    simp only [stripTrailing]
    by_cases hc : (stripTrailing r).isEmpty && isSpaceChar a
    · rw [if_pos hc]; rfl
    · rw [if_neg hc]
      have ht := ih (noTwo_cons h)
      cases he : stripTrailing r with
      | nil => rfl
      | cons d t =>
        rw [he] at ht
        obtain ⟨r', hr⟩ := stripTrailing_head he
        apply noTwo_cons_intro _ ht
        subst hr
        rcases noTwo_pair h with hh | hh
        · left; exact hh
        · right; simp [headNS, hh]

theorem lastNS_stripTrailing : ∀ l : Str, lastNS (stripTrailing l) = true := by
  intro l
  induction l with
  | nil => rfl
  | cons a r ih =>
    simp only [stripTrailing]
    by_cases hc : (stripTrailing r).isEmpty && isSpaceChar a
    · rw [if_pos hc]; rfl
    · rw [if_neg hc]
      cases he : stripTrailing r with
      | nil =>
        rw [he] at hc
        simp only [List.isEmpty_nil, Bool.true_and] at hc
        simp only [lastNS, List.getLast?_singleton]
        simpa using hc
      | cons d t =>
        rw [he] at ih
        simpa [lastNS, List.getLast?] using ih

theorem headNS_stripTrailing {l : Str} (h : headNS l = true) :
    headNS (stripTrailing l) = true := by
  cases l with
  | nil => rfl
  | cons a r =>
    simp only [stripTrailing]
    by_cases hc : (stripTrailing r).isEmpty && isSpaceChar a
    · rw [if_pos hc]; rfl
    · rw [if_neg hc]; exact h

theorem headNS_dropWhile : ∀ l : Str, headNS (l.dropWhile isSpaceChar) = true := by
  intro l
  induction l with
  | nil => rfl
  | cons a r ih =>
    by_cases ha : isSpaceChar a = true
    · rw [List.dropWhile_cons_of_pos ha]; exact ih
    · rw [List.dropWhile_cons_of_neg (by simpa using ha)]
      simpa [headNS] using ha

theorem noTwo_dropWhile {l : Str} (h : noTwo l = true) :
    noTwo (l.dropWhile isSpaceChar) = true := by
  induction l with
  | nil => exact h
  | cons a r ih =>
    by_cases ha : isSpaceChar a = true
    · rw [List.dropWhile_cons_of_pos ha]; exact ih (noTwo_cons h)
    · rw [List.dropWhile_cons_of_neg (by simpa using ha)]; exact h

theorem mem_dropWhile {c : Char} {p : Char → Bool} :
    ∀ {l : Str}, c ∈ l.dropWhile p → c ∈ l := by
  intro l
  induction l with
  | nil => simp
  | cons a r ih =>
    by_cases ha : p a = true
    · rw [List.dropWhile_cons_of_pos ha]
      intro h; exact List.mem_cons.mpr (Or.inr (ih h))
    · rw [List.dropWhile_cons_of_neg (by simpa using ha)]
      exact id

theorem collapse_headNS : ∀ l : Str, headNS (collapseAux true l) = true := by
  intro l
  induction l with
  | nil => rfl
  | cons a r ih =>
    by_cases ha : isSpaceChar a = true
    · simp only [collapseAux, if_pos ha, if_pos rfl]
      exact ih
    · simp only [collapseAux, if_neg ha]
      simpa [headNS] using ha

theorem mem_collapse {c : Char} :
    ∀ {l : Str} {b : Bool}, c ∈ collapseAux b l →
      c = ' ' ∨ (c ∈ l ∧ isSpaceChar c = false) := by
  intro l
  induction l with
  | nil => intro b h; simp [collapseAux] at h
  | cons a r ih =>
    intro b h
    by_cases ha : isSpaceChar a = true
    · cases b with
      | true =>
        simp only [collapseAux, if_pos ha] at h
        rcases ih h with h' | h'
        · exact Or.inl h'
        · exact Or.inr ⟨List.mem_cons.mpr (Or.inr h'.1), h'.2⟩
      | false =>
        simp only [collapseAux, if_pos ha] at h
        rcases List.mem_cons.mp h with h' | h'
        · exact Or.inl h'
        · rcases ih h' with h'' | h''
          · exact Or.inl h''
          · exact Or.inr ⟨List.mem_cons.mpr (Or.inr h''.1), h''.2⟩
    · simp only [collapseAux, if_neg ha] at h
      rcases List.mem_cons.mp h with h' | h'
      · subst h'
        exact Or.inr ⟨List.mem_cons.mpr (Or.inl rfl), by simpa using ha⟩
      · rcases ih h' with h'' | h''
        · exact Or.inl h''
        · exact Or.inr ⟨List.mem_cons.mpr (Or.inr h''.1), h''.2⟩

theorem collapse_noTwo : ∀ (l : Str) (b : Bool), noTwo (collapseAux b l) = true := by
  intro l
  induction l with
  | nil => intro b; rfl
  | cons a r ih =>
    intro b
    by_cases ha : isSpaceChar a = true
    · cases b with
      | true =>
        simp only [collapseAux, if_pos ha]
        exact ih true
      | false =>
        simp only [collapseAux, if_pos ha]
        exact noTwo_cons_intro (Or.inr (collapse_headNS r)) (ih true)
    · simp only [collapseAux, if_neg ha]
      exact noTwo_cons_intro (Or.inl (by simpa using ha)) (ih false)

theorem collapse_id :
    ∀ l : Str, noTwo l = true → (∀ c ∈ l, isSpaceChar c = true → c = ' ') →
      collapseAux false l = l ∧
      (headNS l = true → collapseAux true l = l) := by
  intro l
  induction l with
  | nil => exact fun _ _ => ⟨rfl, fun _ => rfl⟩
  | cons a r ih =>
    intro hn hb
    have hr := ih (noTwo_cons hn) (fun c hc => hb c (List.mem_cons.mpr (Or.inr hc)))
    by_cases ha : isSpaceChar a = true
    · have ha' : a = ' ' := hb a (List.mem_cons.mpr (Or.inl rfl)) ha
      have hh : headNS r = true := headNS_of_noTwo_space hn ha
      constructor
      · simp only [collapseAux, if_pos ha]
        rw [hr.2 hh, ha']
        simp
      · intro hhd
        simp only [headNS, ha] at hhd
        simp at hhd
    · constructor
      · simp only [collapseAux, if_neg ha]
        rw [hr.1]
      · intro _
        simp only [collapseAux, if_neg ha]
        rw [hr.1]

theorem dropWhile_id_of_headNS {l : Str} (h : headNS l = true) :
    l.dropWhile isSpaceChar = l := by
  cases l with
  | nil => rfl
  | cons a r =>
    simp only [headNS] at h
    exact List.dropWhile_cons_of_neg (by simpa using h)

theorem stripTrailing_id : ∀ {l : Str}, lastNS l = true → stripTrailing l = l := by
  intro l
  induction l with
  | nil => intro _; rfl
  | cons a r ih =>
    intro h
    cases r with
    | nil =>
      simp only [lastNS, List.getLast?_singleton] at h
      simp only [stripTrailing, List.isEmpty_nil, Bool.true_and]
      rw [if_neg (by simpa using h)]
    | cons d t =>
      have hr : stripTrailing (d :: t) = d :: t := by
        apply ih
        simpa [lastNS, List.getLast?] using h
      have hdef : stripTrailing (a :: d :: t) =
          if (stripTrailing (d :: t)).isEmpty && isSpaceChar a then []
          else a :: stripTrailing (d :: t) := rfl
      rw [hdef, hr]
      simp

theorem pyStrip_id {l : Str} (h1 : headNS l = true) (h2 : lastNS l = true) :
    pyStrip l = l := by
  rw [pyStrip, dropWhile_id_of_headNS h1, stripTrailing_id h2]

theorem noTwo_lowerAll : ∀ l : Str, noTwo (lowerAll l) = noTwo l := by
  intro l
  induction l with
  | nil => rfl
  | cons a r ih =>
    cases r with
    | nil => rfl
    | cons b t =>
      simp only [lowerAll, List.map_cons] at ih ⊢
      simp only [noTwo, isSpaceChar_lowerChar, ih]

theorem headNS_lowerAll : ∀ l : Str, headNS (lowerAll l) = headNS l := by
  intro l
  cases l with
  | nil => rfl
  | cons a r => simp [lowerAll, headNS, isSpaceChar_lowerChar]

theorem lastNS_lowerAll : ∀ l : Str, lastNS (lowerAll l) = lastNS l := by
  intro l
  simp only [lastNS, lowerAll, List.getLast?_map]
  cases l.getLast? with
  | none => rfl
  | some c => simp [isSpaceChar_lowerChar]

theorem clean_text_facts (s : Str) :
    (∀ c ∈ clean_text s,
      c.toNat ≤ 127 ∧ (isWordChar c = true ∨ c = ' ') ∧ lowerChar c = c) ∧
    noTwo (clean_text s) = true ∧ headNS (clean_text s) = true ∧
    lastNS (clean_text s) = true := by
  have hdef : clean_text s =
      lowerAll (pyStrip (collapseAux false
        (((s.flatMap nfdChar).filter (fun c => decide (c.toNat ≤ 127))).map
          maskWS))) := rfl
  set t1 := (s.flatMap nfdChar).filter (fun c => decide (c.toNat ≤ 127)) with ht1
  set t2 := t1.map maskWS with ht2
  set t3 := collapseAux false t2 with ht3
  set t4 := pyStrip t3 with ht4
  have h1 : ∀ c ∈ t1, c.toNat ≤ 127 := by
    intro c hc
    have := (List.mem_filter.mp hc).2
    simpa using this
  have h2 : ∀ c ∈ t2, (isWordChar c = true ∨ isSpaceChar c = true) ∧ c.toNat ≤ 127 := by
    intro c hc
    obtain ⟨a, ha, hac⟩ := List.mem_map.mp hc
    by_cases hw : (isWordChar a || isSpaceChar a) = true
    · have hca : c = a := by rw [← hac, maskWS, if_pos hw]
      rw [hca]
      exact ⟨by simpa using hw, h1 a ha⟩
    · have hca : c = ' ' := by rw [← hac, maskWS, if_neg hw]
      rw [hca]
      exact ⟨Or.inr (by decide), by decide⟩
  have h3 : ∀ c ∈ t3, (isWordChar c = true ∨ c = ' ') ∧ c.toNat ≤ 127 := by
    intro c hc
    rcases mem_collapse hc with h | h
    · subst h; exact ⟨Or.inr rfl, by decide⟩
    · rcases (h2 c h.1).1 with hw | hs
      · exact ⟨Or.inl hw, (h2 c h.1).2⟩
      · rw [h.2] at hs; cases hs
  have h4 : ∀ c ∈ t4, (isWordChar c = true ∨ c = ' ') ∧ c.toNat ≤ 127 := by
    intro c hc
    exact h3 c (mem_dropWhile (mem_stripTrailing hc))
  have hmem : ∀ c ∈ clean_text s,
      c.toNat ≤ 127 ∧ (isWordChar c = true ∨ c = ' ') ∧ lowerChar c = c := by
    intro c hc
    rw [hdef] at hc
    obtain ⟨a, ha, hac⟩ := List.mem_map.mp hc
    have h4a := h4 a ha
    refine ⟨?_, ?_, ?_⟩
    · rw [← hac]; exact lowerChar_toNat_le h4a.2
    · rcases h4a.1 with hw | hs
      · left; rw [← hac, isWordChar_lowerChar]; exact hw
      · right; rw [← hac, hs]; exact lowerChar_blank
    · rw [← hac]; exact lowerChar_idem a
  have hn3 : noTwo t3 = true := collapse_noTwo t2 false
  have hn4 : noTwo t4 = true := noTwo_stripTrailing (noTwo_dropWhile hn3)
  have hh4 : headNS t4 = true := headNS_stripTrailing (headNS_dropWhile t3)
  have hl4 : lastNS t4 = true := lastNS_stripTrailing (t3.dropWhile isSpaceChar)
  refine ⟨hmem, ?_, ?_, ?_⟩
  · rw [hdef, noTwo_lowerAll]; exact hn4
  · rw [hdef, headNS_lowerAll]; exact hh4
  · rw [hdef, lastNS_lowerAll]; exact hl4

theorem clean_text_id {l : Str}
    (hm : ∀ c ∈ l, c.toNat ≤ 127 ∧ (isWordChar c = true ∨ c = ' ') ∧ lowerChar c = c)
    (hn : noTwo l = true) (hh : headNS l = true) (hl : lastNS l = true) :
    clean_text l = l := by
  have e1 : l.flatMap nfdChar = l := by
    apply flatMapSingleton
    intro a ha
    rw [nfdChar, if_pos (hm a ha).1]
  have e2 : l.filter (fun c => decide (c.toNat ≤ 127)) = l := by
    apply filterSelf
    intro a ha
    simpa using (hm a ha).1
  have e3 : l.map maskWS = l := by
    apply mapIdOf
    intro a ha
    rcases (hm a ha).2.1 with hw | hs
    · rw [maskWS, if_pos (by simp [hw])]
    · subst hs; rfl
  have e4 : collapseAux false l = l := by
    refine (collapse_id l hn ?_).1
    intro c hc hs
    rcases (hm c hc).2.1 with hw | h'
    · rw [word_not_space hw] at hs; cases hs
    · exact h'
  have e5 : pyStrip l = l := pyStrip_id hh hl
  have e6 : lowerAll l = l := by
    apply mapIdOf
    intro a ha
    exact (hm a ha).2.2
  have hdef : clean_text l =
      lowerAll (pyStrip (collapseAux false
        (((l.flatMap nfdChar).filter (fun c => decide (c.toNat ≤ 127))).map
          maskWS))) := rfl
  rw [hdef, e1, e2, e3, e4, e5, e6]

/-- C7: the normalizer clean_text is idempotent, applying it twice equals
applying it once, for every input string. -/
theorem c7_clean_text_idempotent (s : Str) :
    clean_text (clean_text s) = clean_text s := by
  obtain ⟨hm, hn, hh, hl⟩ := clean_text_facts s
  exact clean_text_id hm hn hh hl

theorem synFold (syns : List (Str × Str)) :
    ∀ (ws : List Str) (acc : List Str × List (Str × Str)),
      ws.foldl (synStep syns) acc =
        (acc.1 ++ ws.map (substOne syns),
         acc.2 ++ ws.filterMap (auditOne syns)) := by
  intro ws
  induction ws with
  | nil => intro acc; simp
  | cons w ws ih =>
    intro acc
    simp only [List.foldl_cons, List.map_cons, List.filterMap_cons]
    cases hl : synLookup syns (lowerAll w) with
    | some rep =>
      rw [show synStep syns acc w = (acc.1 ++ [rep], acc.2 ++ [(w, rep)]) by
        simp [synStep, hl]]
      rw [ih]
      simp [substOne, auditOne, hl]
    | none =>
      rw [show synStep syns acc w = (acc.1 ++ [w], acc.2) by simp [synStep, hl]]
      rw [ih]
      simp [substOne, auditOne, hl]

/-- C9: synonym substitution is single pass and non-chaining: the result
text is the space-join of the one-step substitution of each original
token, the audit is exactly the hit pairs in token order, and with the
chained dictionary mapping a to b and b to c the input a rewrites to b,
not c. -/
theorem c9_synonyms_single_pass :
    (∀ (t : Str) (syns : List (Str × Str)),
      apply_synonyms t syns =
        (joinSpace ((pySplit t).map (substOne syns)),
         (pySplit t).filterMap (auditOne syns))) ∧
    apply_synonyms (str "a") [(str "a", str "b"), (str "b", str "c")] =
      (str "b", [(str "a", str "b")]) ∧
    apply_synonyms (str "rosaspremium") [(str "rosas", str "roses")] =
      (str "rosaspremium", []) := by
  refine ⟨?_, by decide, by decide⟩
  intro t syns
  rw [apply_synonyms, synFold]
  simp

theorem pemGo_spec (f : Str → MatchOut) :
    ∀ (inputs : List Str) (cache : List (Str × MatchOut)) (seen : List Str),
      (∀ p ∈ cache, p.2 = f p.1) →
      (∀ k : Str, (cache.find? (fun q => decide (q.1 = k))).isSome ↔ k ∈ seen) →
      pemGo f inputs cache =
        (inputs.map (fun s => if s = str "NN" then none else some (f s)),
         dedupFirstGo seen (inputs.filter (fun s => !decide (s = str "NN")))) := by
  intro inputs
  induction inputs with
  | nil => intro cache seen _ _; rfl
  | cons s rest ih =>
    intro cache seen hc hs
    by_cases hnn : s = str "NN"
    · simp only [pemGo, if_pos hnn, List.map_cons, if_pos hnn,
        List.filter_cons, hnn]
      rw [ih cache seen hc hs]
      simp
    · simp only [pemGo, if_neg hnn, List.map_cons, if_neg hnn,
        List.filter_cons]
      rw [show (!decide (s = str "NN")) = true by simp [hnn]]
      cases hf : cache.find? (fun q => decide (q.1 = s)) with
      | some q =>
        have hqs : q.1 = s := by simpa using List.find?_some hf
        have hq : q.2 = f q.1 := hc q (List.mem_of_find?_eq_some hf)
        have hseen : s ∈ seen := (hs s).mp (by simp [hf])
        rw [ih cache seen hc hs]
        simp only [dedupFirstGo, if_pos hseen]
        rw [hq, hqs]
      | none =>
        have hseen : s ∉ seen := by
          intro hmem
          have := (hs s).mpr hmem
          rw [hf] at this
          simp at this
        have hc' : ∀ p ∈ cache ++ [(s, f s)], p.2 = f p.1 := by
          intro p hp
          rcases List.mem_append.mp hp with hp | hp
          · exact hc p hp
          · simp only [List.mem_singleton] at hp
            rw [hp]
        have hs' : ∀ k : Str,
            ((cache ++ [(s, f s)]).find? (fun q => decide (q.1 = k))).isSome ↔
              k ∈ s :: seen := by
          intro k
          rw [List.find?_append]
          constructor
          · intro h
            rcases Option.isSome_iff_exists.mp h with ⟨a, ha⟩
            rcases Option.or_eq_some.mp ha with ha | ⟨hn, ha⟩
            · exact List.mem_cons.mpr (Or.inr ((hs k).mp (by simp [ha])))
            · simp only [List.find?_singleton] at ha
              by_cases hks : s = k
              · simp [hks]
              · rw [if_neg (by simpa using hks)] at ha
                cases ha
          · intro h
            rcases List.mem_cons.mp h with h | h
            · have : ([(s, f s)].find? (fun q => decide (q.1 = k))) =
                  some (s, f s) := by
                simp [List.find?_singleton, h]
              cases hcf : cache.find? (fun q => decide (q.1 = k)) with
              | some a => simp [hcf]
              | none => simp [hcf, this]
            · have := (hs k).mpr h
              rcases Option.isSome_iff_exists.mp this with ⟨a, ha⟩
              simp [ha]
        rw [ih (cache ++ [(s, f s)]) (s :: seen) hc' hs']
        simp only [dedupFirstGo, if_neg hseen]

/-- C5: for every matcher and input list the memoized batch matcher is
extensionally equal to the naive matcher scoring each row independently,
two positions holding the identical cleaned string receive the identical
result, and the matcher is invoked exactly once per distinct cleaned
string that is not the duplicate sentinel. -/
theorem c5_memoized_matching_equals_naive
    (f : Str → MatchOut) (inputs : List Str) :
    (perform_enhanced_matching f inputs).1 = naive_matching f inputs ∧
    (∀ i j : Nat, inputs.get? i = inputs.get? j →
      (perform_enhanced_matching f inputs).1.get? i =
        (perform_enhanced_matching f inputs).1.get? j) ∧
    (perform_enhanced_matching f inputs).2 =
      dedupFirst (inputs.filter (fun s => !decide (s = str "NN"))) ∧
    (perform_enhanced_matching f inputs).2.length =
      (dedupFirst (inputs.filter (fun s => !decide (s = str "NN")))).length := by
  have hspec := pemGo_spec f inputs [] []
    (by intro p hp; cases hp)
    (by intro k; simp)
  have h1 : (perform_enhanced_matching f inputs).1 = naive_matching f inputs := by
    rw [perform_enhanced_matching, hspec]; rfl
  have h2 : (perform_enhanced_matching f inputs).2 =
      dedupFirst (inputs.filter (fun s => !decide (s = str "NN"))) := by
    rw [perform_enhanced_matching, hspec]; rfl
  refine ⟨h1, ?_, h2, by rw [h2]⟩
  intro i j hij
  rw [h1, naive_matching, List.get?_map, List.get?_map, hij]

/-- Witness for the pairwise-equality conjunct of the C5 theorem at a
concrete batch with a repeated cleaned string. -/
theorem c5_memoized_matching_equals_naive_witness :
    ([str "ab", str "NN", str "ab"].get? 0 =
      [str "ab", str "NN", str "ab"].get? 2) ∧
    (perform_enhanced_matching (fun _ => empty_match_result)
      [str "ab", str "NN", str "ab"]).1.get? 0 =
      (perform_enhanced_matching (fun _ => empty_match_result)
        [str "ab", str "NN", str "ab"]).1.get? 2 :=
  ⟨by decide,
   (c5_memoized_matching_equals_naive (fun _ => empty_match_result)
     [str "ab", str "NN", str "ab"]).2.1 0 2 (by decide)⟩

theorem pySplitGo_word (t : Str) :
    ∀ (w cur : Str), (∀ c ∈ w, isSpaceChar c = false) →
      pySplitGo cur (w ++ t) = pySplitGo (w.reverse ++ cur) t := by
  intro w
  induction w with
  | nil => intro cur _; rfl
  | cons c w' ih =>
    intro cur hw
    have hc : isSpaceChar c = false := hw c (List.mem_cons.mpr (Or.inl rfl))
    show pySplitGo cur (c :: (w' ++ t)) = _
    rw [show pySplitGo cur (c :: (w' ++ t)) = pySplitGo (c :: cur) (w' ++ t) by
      simp [pySplitGo, hc]]
    rw [ih (c :: cur) (fun d hd => hw d (List.mem_cons.mpr (Or.inr hd)))]
    simp

theorem pySplit_joinSpace :
    ∀ Ws : List Str,
      (∀ w ∈ Ws, w ≠ [] ∧ ∀ c ∈ w, isSpaceChar c = false) →
      pySplit (joinSpace Ws) = Ws := by
  intro Ws
  induction Ws with
  | nil => intro _; rfl
  | cons w ws ih =>
    intro h
    have hw := h w (List.mem_cons.mpr (Or.inl rfl))
    cases ws with
    | nil =>
      show pySplitGo [] (joinSpace [w]) = [w]
      rw [show joinSpace [w] = w ++ [] by simp [joinSpace]]
      rw [pySplitGo_word [] w [] hw.2]
      have : (w.reverse ++ []).isEmpty = false := by
        simp [List.isEmpty_iff, hw.1]
      simp [pySplitGo, this, hw.1]
    | cons w2 ws' =>
      show pySplitGo [] (joinSpace (w :: w2 :: ws')) = w :: w2 :: ws'
      rw [show joinSpace (w :: w2 :: ws') = w ++ ' ' :: joinSpace (w2 :: ws')
        from rfl]
      rw [pySplitGo_word (' ' :: joinSpace (w2 :: ws')) w [] hw.2]
      have hsp : isSpaceChar ' ' = true := by decide
      have hne : (w.reverse ++ []).isEmpty = false := by
        simp [List.isEmpty_iff, hw.1]
      rw [show pySplitGo (w.reverse ++ []) (' ' :: joinSpace (w2 :: ws')) =
          (w.reverse ++ []).reverse :: pySplitGo [] (joinSpace (w2 :: ws')) by
        simp [pySplitGo, hsp, List.isEmpty_iff, hw.1]]
      have hih := ih (fun v hv => h v (List.mem_cons.mpr (Or.inr hv)))
      rw [pySplit] at hih
      rw [hih]
      simp

theorem pySplitGo_props (l : Str) :
    ∀ cur : Str, (∀ c ∈ cur, isSpaceChar c = false) →
      ∀ w ∈ pySplitGo cur l, w ≠ [] ∧ ∀ c ∈ w, isSpaceChar c = false := by
  induction l with
  | nil =>
    intro cur hcur w hw
    by_cases hc : cur.isEmpty
    · simp [pySplitGo, hc] at hw
    · simp only [pySplitGo, if_neg hc, List.mem_singleton] at hw
      subst hw
      refine ⟨by simpa [List.isEmpty_iff] using hc, ?_⟩
      intro c hc'
      exact hcur c (List.mem_reverse.mp hc')
  | cons a rest ih =>
    intro cur hcur w hw
    by_cases ha : isSpaceChar a = true
    · by_cases hc : cur.isEmpty
      · rw [show pySplitGo cur (a :: rest) = pySplitGo [] rest by
          simp [pySplitGo, ha, hc]] at hw
        exact ih [] (by simp) w hw
      · rw [show pySplitGo cur (a :: rest) =
            cur.reverse :: pySplitGo [] rest by simp [pySplitGo, ha, hc]] at hw
        rcases List.mem_cons.mp hw with hw | hw
        · subst hw
          refine ⟨by simpa [List.isEmpty_iff] using hc, ?_⟩
          intro c hc'
          exact hcur c (List.mem_reverse.mp hc')
        · exact ih [] (by simp) w hw
    · rw [show pySplitGo cur (a :: rest) = pySplitGo (a :: cur) rest by
        simp [pySplitGo, ha]] at hw
      refine ih (a :: cur) ?_ w hw
      intro c hc'
      rcases List.mem_cons.mp hc' with hc' | hc'
      · subst hc'; simpa using ha
      · exact hcur c hc'

theorem pySplit_props (l : Str) :
    ∀ w ∈ pySplit l, w ≠ [] ∧ ∀ c ∈ w, isSpaceChar c = false :=
  pySplitGo_props l [] (by simp)

theorem joinSpace_pySplit_idem (l : Str) :
    joinSpace (pySplit (joinSpace (pySplit l))) = joinSpace (pySplit l) := by
  rw [pySplit_joinSpace (pySplit l) (pySplit_props l)]

theorem rbFold (ps : List Str) :
    ∀ acc : Str × List Str, ∃ delta,
      (ps.foldl rbStep acc).2 = acc.2 ++ delta ∧ List.Sublist delta (ps.map pyStrip) := by
  induction ps with
  | nil => intro acc; exact ⟨[], by simp, by simp⟩
  | cons p ps ih =>
    intro acc
    simp only [List.foldl_cons, List.map_cons]
    by_cases h1 : (pyStrip p).isEmpty
    · have hstep : rbStep acc p = acc := by simp [rbStep, h1]
      rw [hstep]
      obtain ⟨delta, hd, hs⟩ := ih acc
      exact ⟨delta, hd, List.Sublist.cons _ hs⟩
    · by_cases h2 : ww_search (pyStrip p) acc.1 = true
      · have hstep : rbStep acc p =
            (ww_sub_all (pyStrip p) acc.1, acc.2 ++ [pyStrip p]) := by
          simp [rbStep, h1, h2]
        rw [hstep]
        obtain ⟨delta, hd, hs⟩ := ih (ww_sub_all (pyStrip p) acc.1,
          acc.2 ++ [pyStrip p])
        refine ⟨pyStrip p :: delta, ?_, List.Sublist.cons₂ _ hs⟩
        rw [hd]
        simp
      · have hstep : rbStep acc p = acc := by
          simp [rbStep, h1, h2]
        rw [hstep]
        obtain ⟨delta, hd, hs⟩ := ih acc
        exact ⟨delta, hd, List.Sublist.cons _ hs⟩

/-- C6: remove_blacklist processes the phrases in descending order of
trimmed length (the processing order is a permutation of the blacklist
sorted by that descending key, and the audit list is a sublist of the
trimmed sorted phrases in that order), re-collapses whitespace in its
result, and on the concrete inputs removes whole-word case-insensitive
occurrences only, removes all occurrences of a found phrase, and prefers
the longer phrase: the bunch example yields the text with only the
number and the product word left. -/
theorem c6_remove_blacklist (t : Str) (bl : List Str) :
    (sortDescTrim bl).Perm bl ∧
    List.Sorted descTrimLen (sortDescTrim bl) ∧
    List.Sublist (remove_blacklist t bl).2 ((sortDescTrim bl).map pyStrip) ∧
    (remove_blacklist t bl).1 =
      joinSpace (pySplit (remove_blacklist t bl).1) ∧
    remove_blacklist (str "24 stems bunch roses")
      [str "stems bunch", str "bunch"] =
      (str "24 roses", [str "stems bunch"]) ∧
    remove_blacklist (str "BUNCH x bunch") [str "bunch"] =
      (str "x", [str "bunch"]) ∧
    remove_blacklist (str "stemsbunch") [str "bunch"] =
      (str "stemsbunch", []) := by
  refine ⟨List.perm_insertionSort descTrimLen bl,
    List.sorted_insertionSort descTrimLen bl, ?_, ?_, by decide, by decide,
    by decide⟩
  · obtain ⟨delta, hd, hs⟩ := rbFold (sortDescTrim bl) (t, [])
    rw [show (remove_blacklist t bl).2 =
      ((sortDescTrim bl).foldl rbStep (t, [])).2 from rfl, hd]
    simpa using hs
  · rw [show (remove_blacklist t bl).1 =
      joinSpace (pySplit (pyStrip ((sortDescTrim bl).foldl rbStep (t, [])).1))
      from rfl]
    rw [pySplit_joinSpace _ (pySplit_props _)]

theorem extractOneGo_some (sc : Str → Str → Nat) (q : Str) :
    ∀ (choices : List Str) (b : Str × Nat),
      ∃ p : Str × Nat,
        choices.foldl (fun best c =>
          match best with
          | none => some (c, sc q c)
          | some (bc, bs) =>
            if sc q c > bs then some (c, sc q c) else some (bc, bs))
          (some b) = some p := by
  intro choices
  induction choices with
  | nil => intro b; exact ⟨b, rfl⟩
  | cons c rest ih =>
    intro b
    obtain ⟨bc, bs⟩ := b
    simp only [List.foldl_cons]
    by_cases h : sc q c > bs
    · simpa [h] using ih (c, sc q c)
    · simpa [h] using ih (bc, bs)

theorem extractOne_isSome (sc : Str → Str → Nat) (q : Str)
    (choices : List Str) (h : choices ≠ []) :
    ∃ m s, extractOne sc q choices = some (m, s) := by
  cases choices with
  | nil => cases h rfl
  | cons c rest =>
    obtain ⟨p, hp⟩ := extractOneGo_some sc q rest (c, sc q c)
    exact ⟨p.1, p.2, by simpa [extractOne] using hp⟩

theorem extractOneGo_mem (sc : Str → Str → Nat) (q : Str) :
    ∀ (choices : List Str) (b : Str × Nat) (m : Str) (s : Nat),
      choices.foldl (fun best c =>
        match best with
        | none => some (c, sc q c)
        | some (bc, bs) =>
          if sc q c > bs then some (c, sc q c) else some (bc, bs))
        (some b) = some (m, s) →
      (m, s) = b ∨ (m ∈ choices ∧ s = sc q m) := by
  intro choices
  induction choices with
  | nil =>
    intro b m s h
    left
    simpa using h.symm
  | cons c rest ih =>
    intro b m s h
    obtain ⟨bc, bs⟩ := b
    simp only [List.foldl_cons] at h
    by_cases hgt : sc q c > bs
    · rw [if_pos hgt] at h
      rcases ih (c, sc q c) m s h with h' | h'
      · right
        have hm : m = c := by simpa using (Prod.mk.injEq .. ▸ h').1
        have hs : s = sc q c := by simpa using (Prod.mk.injEq .. ▸ h').2
        exact ⟨by simp [hm], by rw [hs, hm]⟩
      · exact Or.inr ⟨List.mem_cons.mpr (Or.inr h'.1), h'.2⟩
    · rw [if_neg hgt] at h
      rcases ih (bc, bs) m s h with h' | h'
      · exact Or.inl h'
      · exact Or.inr ⟨List.mem_cons.mpr (Or.inr h'.1), h'.2⟩

theorem extractOne_mem (sc : Str → Str → Nat) (q : Str)
    (choices : List Str) (m : Str) (s : Nat)
    (h : extractOne sc q choices = some (m, s)) :
    m ∈ choices ∧ s = sc q m := by
  cases choices with
  | nil => cases h
  | cons c rest =>
    have h' : rest.foldl (fun best c =>
        match best with
        | none => some (c, sc q c)
        | some (bc, bs) =>
          if sc q c > bs then some (c, sc q c) else some (bc, bs))
        (some (c, sc q c)) = some (m, s) := by
      simpa [extractOne] using h
    rcases extractOneGo_mem sc q rest (c, sc q c) m s h' with h'' | h''
    · have hm : m = c := by simpa using (Prod.mk.injEq .. ▸ h'').1
      have hs : s = sc q c := by simpa using (Prod.mk.injEq .. ▸ h'').2
      exact ⟨by simp [hm], by rw [hs, hm]⟩
    · exact ⟨List.mem_cons.mpr (Or.inr h''.1), h''.2⟩

theorem cascade_eq (scA scB scC : Str → Str → Nat) (q : Str)
    (choices : List Str) (m0 m1 m2 : Str) (s0 s1 s2 : Nat)
    (hA : extractOne scA q choices = some (m0, s0))
    (hB : extractOne scB q choices = some (m1, s1))
    (hC : extractOne scC q choices = some (m2, s2)) :
    cascade scA scB scC q choices =
      (let pB := if s0 < 70 then (if s1 > s0 then (m1, s1) else (m0, s0))
                 else (m0, s0)
       let pC := if pB.2 < 80 then (if s2 > pB.2 then (m2, s2) else pB)
                 else pB
       ⟨pC.1, pC.2, pB.1, pB.2, decide (s0 < 70), decide (pB.2 < 80)⟩) := by
  simp only [cascade, hA, hB, hC]

theorem cascade_best_mem (scA scB scC : Str → Str → Nat) (q : Str)
    (choices : List Str) (h : choices ≠ []) :
    (cascade scA scB scC q choices).best ∈ choices ∧
    (cascade scA scB scC q choices).bestB ∈ choices := by
  obtain ⟨m0, s0, hA⟩ := extractOne_isSome scA q choices h
  obtain ⟨m1, s1, hB⟩ := extractOne_isSome scB q choices h
  obtain ⟨m2, s2, hC⟩ := extractOne_isSome scC q choices h
  have h0 := (extractOne_mem scA q choices m0 s0 hA).1
  have h1 := (extractOne_mem scB q choices m1 s1 hB).1
  have h2 := (extractOne_mem scC q choices m2 s2 hC).1
  rw [cascade_eq scA scB scC q choices m0 m1 m2 s0 s1 s2 hA hB hC]
  by_cases h70 : s0 < 70
  · by_cases hbs : s1 > s0
    · by_cases h80 : s1 < 80
      · by_cases hcs : s2 > s1
        · simp [h70, hbs, h80, hcs, h1, h2]
        · simp [h70, hbs, h80, hcs, h1]
      · simp [h70, hbs, h80, h1]
    · by_cases h80 : s0 < 80
      · by_cases hcs : s2 > s0
        · simp [h70, hbs, h80, hcs, h0, h2]
        · simp [h70, hbs, h80, hcs, h0]
      · simp [h70, hbs, h80, h0]
  · by_cases h80 : s0 < 80
    · by_cases hcs : s2 > s0
      · simp [h70, h80, hcs, h0, h2]
      · simp [h70, h80, hcs, h0]
    · simp [h70, h80, h0]

theorem iFM_cascade (scA scB scC : Str → Str → Nat) (input : Str)
    (entries : List LEntry) (h : entries ≠ []) :
    (intelligent_fuzzy_match scA scB scC input entries).best_match =
      (cascade scA scB scC input (entries.map (fun e => e.skey))).best ∧
    (intelligent_fuzzy_match scA scB scC input entries).similarity =
      (cascade scA scB scC input (entries.map (fun e => e.skey))).score := by
  have hne : (entries.map (fun e => e.skey)).isEmpty = false := by
    cases entries with
    | nil => cases h rfl
    | cons e es => simp
  rw [intelligent_fuzzy_match]
  simp only [hne, Bool.false_eq_true, if_false]
  cases hf : entries.find? (fun e =>
      decide (e.skey = (cascade scA scB scC input
        (entries.map (fun e => e.skey))).best)) with
  | none => exact ⟨rfl, rfl⟩
  | some e => exact ⟨rfl, rfl⟩

theorem pfm_cascade (scA scB scC : Str → Str → Nat) (input : Str)
    (catalog : List REntry)
    (hin : (pyStrip input).isEmpty = false)
    (hkeys : (catalog.map (fun e => e.search_key)).filter
      (fun k => !k.isEmpty) ≠ []) :
    (perform_fuzzy_matching scA scB scC input catalog).best_match =
      (cascade scA scB scC input ((catalog.map (fun e => e.search_key)).filter
        (fun k => !k.isEmpty))).best ∧
    (perform_fuzzy_matching scA scB scC input catalog).similarity =
      (cascade scA scB scC input ((catalog.map (fun e => e.search_key)).filter
        (fun k => !k.isEmpty))).score := by
  have hcat : catalog ≠ [] := by
    intro h'
    subst h'
    exact hkeys rfl
  have hcatE : catalog.isEmpty = false := by
    cases catalog with
    | nil => cases hcat rfl
    | cons e es => rfl
  set keys := (catalog.map (fun e => e.search_key)).filter
    (fun k => !k.isEmpty) with hkdef
  have hkE : keys.isEmpty = false := by
    cases hk : keys with
    | nil => cases hkeys hk
    | cons a l => rfl
  have hmem : (cascade scA scB scC input keys).best ∈ keys :=
    (cascade_best_mem scA scB scC input keys hkeys).1
  have hex : ∃ e ∈ catalog,
      e.search_key = (cascade scA scB scC input keys).best := by
    have h1 := (List.mem_filter.mp (hkdef ▸ hmem)).1
    obtain ⟨e, he, hes⟩ := List.mem_map.mp h1
    exact ⟨e, he, hes⟩
  have hfs : (catalog.find? (fun e =>
      decide (e.search_key = (cascade scA scB scC input keys).best))).isSome := by
    rw [List.find?_isSome]
    obtain ⟨e, he, hes⟩ := hex
    exact ⟨e, he, by simpa using hes⟩
  rw [perform_fuzzy_matching]
  simp only [hin, hcatE, Bool.or_self, Bool.false_eq_true, if_false]
  rw [← hkdef]
  simp only [hkE, Bool.false_eq_true, if_false]
  cases hf : catalog.find? (fun e =>
      decide (e.search_key = (cascade scA scB scC input keys).best)) with
  | none => rw [hf] at hfs; cases hfs
  | some e => exact ⟨rfl, rfl⟩

/-- C3: the escalation policy of the cascade both matchers run: scorer A
is always consulted and yields the pick m0 with score s0; scorer B runs
exactly when s0 is below seventy and replaces the pick exactly on a
strictly greater score; scorer C runs exactly when the running score is
still below eighty and replaces the pick exactly on a strictly greater
score; when s0 is at least eighty the result is the pick of scorer A
unchanged; and the best match and similarity of both
intelligent_fuzzy_match and the row matcher are the cascade outputs. -/
theorem c3_escalation_cascade (scA scB scC : Str → Str → Nat) (q : Str)
    (choices : List Str) (m0 : Str) (s0 : Nat)
    (hA : extractOne scA q choices = some (m0, s0)) :
    (cascade scA scB scC q choices).ranB = decide (s0 < 70) ∧
    (¬ s0 < 70 → (cascade scA scB scC q choices).bestB = m0 ∧
      (cascade scA scB scC q choices).scoreB = s0) ∧
    (s0 < 70 → ∃ m1 s1, extractOne scB q choices = some (m1, s1) ∧
      (s1 > s0 → (cascade scA scB scC q choices).bestB = m1 ∧
        (cascade scA scB scC q choices).scoreB = s1) ∧
      (¬ s1 > s0 → (cascade scA scB scC q choices).bestB = m0 ∧
        (cascade scA scB scC q choices).scoreB = s0)) ∧
    (cascade scA scB scC q choices).ranC =
      decide ((cascade scA scB scC q choices).scoreB < 80) ∧
    ((cascade scA scB scC q choices).scoreB < 80 →
      ∃ m2 s2, extractOne scC q choices = some (m2, s2) ∧
      (s2 > (cascade scA scB scC q choices).scoreB →
        (cascade scA scB scC q choices).best = m2 ∧
        (cascade scA scB scC q choices).score = s2) ∧
      (¬ s2 > (cascade scA scB scC q choices).scoreB →
        (cascade scA scB scC q choices).best =
          (cascade scA scB scC q choices).bestB ∧
        (cascade scA scB scC q choices).score =
          (cascade scA scB scC q choices).scoreB)) ∧
    (¬ (cascade scA scB scC q choices).scoreB < 80 →
      (cascade scA scB scC q choices).best =
        (cascade scA scB scC q choices).bestB ∧
      (cascade scA scB scC q choices).score =
        (cascade scA scB scC q choices).scoreB) ∧
    (80 ≤ s0 → (cascade scA scB scC q choices).best = m0 ∧
      (cascade scA scB scC q choices).score = s0) ∧
    (∀ entries : List LEntry, entries ≠ [] →
      (intelligent_fuzzy_match scA scB scC q entries).best_match =
        (cascade scA scB scC q (entries.map (fun e => e.skey))).best ∧
      (intelligent_fuzzy_match scA scB scC q entries).similarity =
        (cascade scA scB scC q (entries.map (fun e => e.skey))).score) ∧
    (∀ catalog : List REntry, (pyStrip q).isEmpty = false →
      (catalog.map (fun e => e.search_key)).filter (fun k => !k.isEmpty) ≠ [] →
      (perform_fuzzy_matching scA scB scC q catalog).best_match =
        (cascade scA scB scC q ((catalog.map (fun e => e.search_key)).filter
          (fun k => !k.isEmpty))).best ∧
      (perform_fuzzy_matching scA scB scC q catalog).similarity =
        (cascade scA scB scC q ((catalog.map (fun e => e.search_key)).filter
          (fun k => !k.isEmpty))).score) := by
  have hne : choices ≠ [] := by
    intro h'
    subst h'
    cases hA
  obtain ⟨m1, s1, hB⟩ := extractOne_isSome scB q choices hne
  obtain ⟨m2, s2, hC⟩ := extractOne_isSome scC q choices hne
  have hcas := cascade_eq scA scB scC q choices m0 m1 m2 s0 s1 s2 hA hB hC
  refine ⟨?_, ?_, ?_, ?_, ?_, ?_, ?_, ?_, ?_⟩
  · rw [hcas]
  · intro h70
    rw [hcas]
    simp [h70]
  · intro h70
    refine ⟨m1, s1, hB, ?_, ?_⟩
    · intro hbs
      rw [hcas]
      simp [h70, hbs]
    · intro hbs
      rw [hcas]
      simp [h70, hbs]
  · rw [hcas]
  · intro h80
    rw [hcas] at h80
    refine ⟨m2, s2, hC, ?_, ?_⟩
    · intro hcs
      rw [hcas] at hcs ⊢
      simp only at h80 hcs ⊢
      simp [h80, hcs]
    · intro hcs
      rw [hcas] at hcs ⊢
      simp only at h80 hcs ⊢
      simp [h80, hcs]
  · intro h80
    rw [hcas] at h80 ⊢
    simp only at h80 ⊢
    simp [h80]
  · intro h80
    rw [hcas]
    have h70 : ¬ s0 < 70 := by omega
    have h80' : ¬ s0 < 80 := by omega
    simp [h70, h80']
  · intro entries hent
    exact iFM_cascade scA scB scC q entries hent
  · intro catalog hin hcat
    exact pfm_cascade scA scB scC q catalog hin hcat

/-- Witness for the C3 cascade theorem: with a scorer A value of
eighty-five the cascade returns the pick of scorer A unchanged even
though both fallback scorers would score higher. -/
theorem c3_escalation_cascade_witness :
    (cascade (fun _ _ => 85) (fun _ _ => 99) (fun _ _ => 99) (str "q")
      [str "k1", str "k2"]).best = str "k1" ∧
    (cascade (fun _ _ => 85) (fun _ _ => 99) (fun _ _ => 99) (str "q")
      [str "k1", str "k2"]).score = 85 :=
  (c3_escalation_cascade (fun _ _ => 85) (fun _ _ => 99) (fun _ _ => 99)
    (str "q") [str "k1", str "k2"] (str "k1") 85
    (by decide)).2.2.2.2.2.2.1 (by decide)

theorem space_not_word {c : Char} (h : isSpaceChar c = true) :
    isWordChar c = false := by
  simp only [isSpaceChar, decide_eq_true_eq] at h
  simp only [isWordChar, decide_eq_false_iff_not]
  omega

theorem stripTrailing_nil_of_all_space {l : Str}
    (h : ∀ c ∈ l, isSpaceChar c = true) : stripTrailing l = [] := by
  induction l with
  | nil => rfl
  | cons c r ih =>
    have ht : stripTrailing r = [] :=
      ih (fun d hd => h d (List.mem_cons.mpr (Or.inr hd)))
    have hdef : stripTrailing (c :: r) =
        if (stripTrailing r).isEmpty && isSpaceChar c then []
        else c :: stripTrailing r := rfl
    rw [hdef, ht]
    simp [h c (List.mem_cons.mpr (Or.inl rfl))]

theorem pyStrip_nil_of_all_space {l : Str}
    (h : ∀ c ∈ l, isSpaceChar c = true) : pyStrip l = [] := by
  rw [pyStrip]
  apply stripTrailing_nil_of_all_space
  intro c hc
  exact h c (mem_dropWhile hc)

theorem stripTrailing_nil_all_space :
    ∀ {l : Str}, stripTrailing l = [] → ∀ c ∈ l, isSpaceChar c = true := by
  intro l
  induction l with
  | nil => intro _ c hc; cases hc
  | cons a r ih =>
    intro h c hc
    have hdef : stripTrailing (a :: r) =
        if (stripTrailing r).isEmpty && isSpaceChar a then []
        else a :: stripTrailing r := rfl
    rw [hdef] at h
    by_cases hcond : ((stripTrailing r).isEmpty && isSpaceChar a) = true
    · have hr : stripTrailing r = [] := by
        have := (Bool.and_eq_true ..).mp hcond
        simpa [List.isEmpty_iff] using this.1
      have ha : isSpaceChar a = true := ((Bool.and_eq_true ..).mp hcond).2
      rcases List.mem_cons.mp hc with hc | hc
      · rw [hc]; exact ha
      · exact ih hr c hc
    · rw [if_neg hcond] at h
      cases h

theorem pyStrip_nil_all_space {l : Str} (h : pyStrip l = []) :
    ∀ c ∈ l, isSpaceChar c = true := by
  intro c hc
  have hdw := stripTrailing_nil_all_space h
  by_cases hcw : c ∈ l.dropWhile isSpaceChar
  · exact hdw c hcw
  · have hsplit : l = l.takeWhile isSpaceChar ++ l.dropWhile isSpaceChar :=
      (List.takeWhile_append_dropWhile ..).symm
    rcases List.mem_append.mp (hsplit ▸ hc) with h' | h'
    · exact List.mem_takeWhile_imp h'
    · exact absurd h' hcw

theorem fullProcess_nil {input : Str} (h : (pyStrip input).isEmpty = true) :
    fullProcess input = [] := by
  have hall : ∀ c ∈ input, isSpaceChar c = true :=
    pyStrip_nil_all_space (List.isEmpty_iff.mp h)
  rw [fullProcess]
  apply pyStrip_nil_of_all_space
  intro c hc
  obtain ⟨a, ha, hac⟩ := List.mem_map.mp hc
  obtain ⟨b, hb, hbc⟩ := List.mem_map.mp ha
  have hbsp : isSpaceChar b = true := hall b (List.mem_filter.mp hb).1
  have hbw : isWordChar b = false := space_not_word hbsp
  rw [← hac, ← hbc, hbw]
  simp only [Bool.false_eq_true, if_false]
  rw [lowerChar_blank]
  decide

theorem getLastD_replicate_zero : ∀ n : Nat, (List.replicate n 0).getLastD 0 = 0 := by
  intro n
  induction n with
  | zero => rfl
  | succ n ih =>
    cases n with
    | zero => rfl
    | succ m =>
      simpa [List.replicate_succ, List.getLastD] using ih

theorem lcs_nil (b : Str) : lcs [] b = 0 := by
  rw [lcs]
  simp only [List.foldl_nil]
  exact getLastD_replicate_zero (b.length + 1)

theorem fuzzBase_nil (p : Str) :
    fuzzBase [] p = if p.isEmpty then 100 else 0 := by
  cases p with
  | nil => rfl
  | cons c r =>
    simp only [fuzzBase, List.isEmpty_nil, List.isEmpty_cons, Bool.true_and,
      Bool.false_eq_true, if_false]
    rw [lcs_nil]
    simp only [Nat.mul_zero]
    rw [roundHE]
    simp

theorem foldl_max_all100 :
    ∀ (l : List Nat) (a : Nat), (∀ x ∈ l, x = 100) →
      l.foldl max a = if l.isEmpty then a else max a 100 := by
  intro l
  induction l with
  | nil => intro a _; rfl
  | cons x r ih =>
    intro a h
    have hx : x = 100 := h x (List.mem_cons.mpr (Or.inl rfl))
    simp only [List.foldl_cons, List.isEmpty_cons, Bool.false_eq_true, if_false]
    rw [ih (max a x) (fun y hy => h y (List.mem_cons.mpr (Or.inr hy)))]
    by_cases hr : r.isEmpty
    · simp [hr, hx]
    · simp only [hr, Bool.false_eq_true, if_false]
      rw [hx]
      omega

theorem part_ratio_score_nil {input : Str} (k : Str)
    (h : (pyStrip input).isEmpty = true) : part_ratio_score input k = 100 := by
  have hfp : fullProcess input = [] := fullProcess_nil h
  rw [part_ratio_score]
  simp only [hfp, List.length_nil, Nat.zero_le, if_pos]
  have hall : ∀ x ∈ windowScores [] (fullProcess k), x = 100 := by
    intro x hx
    obtain ⟨i, _, hix⟩ := List.mem_map.mp hx
    rw [← hix]
    simp [fuzzBase]
  rw [foldl_max_all100 _ 0 hall]
  have hne : (windowScores [] (fullProcess k)).isEmpty = false := by
    rw [windowScores]
    simp [List.isEmpty_iff, List.range_eq_nil]
  simp [hne]

theorem token_sort_score_nil {input : Str} (k : Str)
    (h : (pyStrip input).isEmpty = true) :
    token_sort_score input k = if (processAndSort k).isEmpty then 100 else 0 := by
  have hfp : fullProcess input = [] := fullProcess_nil h
  rw [token_sort_score]
  rw [show processAndSort input = [] by rw [processAndSort, hfp]; rfl]
  exact fuzzBase_nil (processAndSort k)

/-- C1 counterexample: with the modelled library scorers, the batch
matcher intelligent_fuzzy_match on a whitespace-only input over a
one-entry catalog with a non-empty search key returns the search key of
that entry as best match with similarity one hundred and its attribute
fields copied, not the empty MatchResult the claim states. -/
theorem c1_empty_input_counterexample :
    (intelligent_fuzzy_match token_sort_score part_ratio_score
      token_set_score (str " ")
      [⟨str "roses", str "freedom", str "red", str "40cm", str "123",
        str "roses freedom red 40cm"⟩]).best_match =
      str "roses freedom red 40cm" ∧
    (intelligent_fuzzy_match token_sort_score part_ratio_score
      token_set_score (str " ")
      [⟨str "roses", str "freedom", str "red", str "40cm", str "123",
        str "roses freedom red 40cm"⟩]).similarity = 100 ∧
    (intelligent_fuzzy_match token_sort_score part_ratio_score
      token_set_score (str " ")
      [⟨str "roses", str "freedom", str "red", str "40cm", str "123",
        str "roses freedom red 40cm"⟩]).catalog_id = str "123" ∧
    ¬ ((intelligent_fuzzy_match token_sort_score part_ratio_score
      token_set_score (str " ")
      [⟨str "roses", str "freedom", str "red", str "40cm", str "123",
        str "roses freedom red 40cm"⟩]).best_match = [] ∧
      (intelligent_fuzzy_match token_sort_score part_ratio_score
        token_set_score (str " ")
        [⟨str "roses", str "freedom", str "red", str "40cm", str "123",
          str "roses freedom red 40cm"⟩]).similarity = 0) := by
  refine ⟨by decide, by decide, by decide, ?_⟩
  intro h
  have := h.2
  rw [show (intelligent_fuzzy_match token_sort_score part_ratio_score
      token_set_score (str " ")
      [⟨str "roses", str "freedom", str "red", str "40cm", str "123",
        str "roses freedom red 40cm"⟩]).similarity = 100 by decide] at this
  cases this

/-- C1 amended: the empty-input contract holds for the row matcher,
which guards blank input ahead of any scoring and returns the empty
MatchResult for every catalog and every scorer triple; the batch matcher
has no such guard, and with the modelled library scorers a blank input
over a non-empty catalog yields similarity one hundred with a best match
drawn from the catalog search keys, hence non-empty whenever the search
keys are non-empty. -/
theorem c1_empty_input_amended :
    (∀ (scA scB scC : Str → Str → Nat) (input : Str)
      (catalog : List REntry), (pyStrip input).isEmpty = true →
      perform_fuzzy_matching scA scB scC input catalog =
        empty_match_result) ∧
    (∀ (entries : List LEntry) (input : Str), entries ≠ [] →
      (pyStrip input).isEmpty = true →
      (intelligent_fuzzy_match token_sort_score part_ratio_score
        token_set_score input entries).similarity = 100 ∧
      (intelligent_fuzzy_match token_sort_score part_ratio_score
        token_set_score input entries).best_match ∈
        entries.map (fun e => e.skey) ∧
      ((∀ e ∈ entries, e.skey ≠ []) →
        (intelligent_fuzzy_match token_sort_score part_ratio_score
          token_set_score input entries).best_match ≠ [])) := by
  constructor
  · intro scA scB scC input catalog h
    rw [perform_fuzzy_matching, h]
    rfl
  · intro entries input hent hin
    have hne : entries.map (fun e => e.skey) ≠ [] := by
      cases entries with
      | nil => cases hent rfl
      | cons e es => simp
    set choices := entries.map (fun e => e.skey) with hch
    obtain ⟨m0, s0, hA⟩ :=
      extractOne_isSome token_sort_score input choices hne
    obtain ⟨m1, s1, hB⟩ :=
      extractOne_isSome part_ratio_score input choices hne
    obtain ⟨m2, s2, hC⟩ :=
      extractOne_isSome token_set_score input choices hne
    have hm0 := extractOne_mem token_sort_score input choices m0 s0 hA
    have hm1 := extractOne_mem part_ratio_score input choices m1 s1 hB
    have hs1 : s1 = 100 := by
      rw [hm1.2]
      exact part_ratio_score_nil m1 hin
    have hcas := cascade_eq token_sort_score part_ratio_score token_set_score
      input choices m0 m1 m2 s0 s1 s2 hA hB hC
    have hiFM := iFM_cascade token_sort_score part_ratio_score token_set_score
      input entries hent
    have hfin : (cascade token_sort_score part_ratio_score token_set_score
        input choices).score = 100 ∧
        (cascade token_sort_score part_ratio_score token_set_score
          input choices).best ∈ choices := by
      by_cases hps : (processAndSort m0).isEmpty = true
      · have hs0 : s0 = 100 := by
          rw [hm0.2, token_sort_score_nil m0 hin, if_pos hps]
        rw [hcas, hs0, hs1]
        norm_num
        exact hm0.1
      · have hs0 : s0 = 0 := by
          rw [hm0.2, token_sort_score_nil m0 hin,
            if_neg (by simpa using hps)]
        rw [hcas, hs0, hs1]
        norm_num
        exact hm1.1
    refine ⟨by rw [hiFM.2, hfin.1], by rw [hiFM.1]; exact hfin.2, ?_⟩
    intro hkeys
    rw [hiFM.1]
    obtain ⟨e, he, hse⟩ := List.mem_map.mp (hch ▸ hfin.2)
    rw [← hse]
    exact hkeys e he

/-- Witness for the amended C1 theorem: the row matcher returns the empty
result on a blank input over a non-empty catalog, and the batch matcher
returns similarity one hundred there. -/
theorem c1_empty_input_amended_witness :
    perform_fuzzy_matching token_sort_score part_ratio_score token_set_score
      (str "  ")
      [⟨str "k", str "a", str "b", str "c", str "d", str "9"⟩] =
      empty_match_result ∧
    (intelligent_fuzzy_match token_sort_score part_ratio_score
      token_set_score (str " ")
      [⟨str "roses", str "freedom", str "red", str "40cm", str "123",
        str "roses freedom red 40cm"⟩]).similarity = 100 :=
  ⟨c1_empty_input_amended.1 token_sort_score part_ratio_score
    token_set_score (str "  ")
    [⟨str "k", str "a", str "b", str "c", str "d", str "9"⟩] (by decide),
   (c1_empty_input_amended.2
    [⟨str "roses", str "freedom", str "red", str "40cm", str "123",
      str "roses freedom red 40cm"⟩] (str " ") (by decide) (by decide)).1⟩

/-- C2: the cache-reuse guard evaluated at the failing input.  The code
compares the seconds attribute of the elapsed timedelta, the remainder of
the elapsed time modulo one day, against the TTL.  Within the first day
the guard behaves as the claim states (reuse at two hundred seconds,
rebuild at four hundred), but at an elapsed time of one day and ten
seconds, far beyond the three-hundred-second TTL, the cache is reused. -/
theorem c2_cache_ttl_day_wraparound :
    catalog_cache_reused false true true 200 = true ∧
    catalog_cache_reused false true true 400 = false ∧
    86410 > 300 ∧
    catalog_cache_reused false true true 86410 = true := by decide

theorem markDupGo_spec :
    ∀ (keys seen : List Str) (j : Nat) (k : Str), keys.get? j = some k →
      (markDupGo seen keys).get? j =
        some (decide (k ∈ seen ++ keys.take j)) := by
  intro keys
  induction keys with
  | nil => intro seen j k h; cases h
  | cons k0 rest ih =>
    intro seen j k h
    cases j with
    | zero =>
      have hk : k = k0 := by simpa using h.symm
      subst hk
      by_cases h0 : k ∈ seen
      · simp [markDupGo, h0]
      · simp [markDupGo, h0]
    | succ j =>
      have hr : rest.get? j = some k := by simpa using h
      by_cases h0 : k0 ∈ seen
      · rw [show (markDupGo seen (k0 :: rest)).get? (j + 1) =
          (markDupGo seen rest).get? j by simp [markDupGo, h0]]
        rw [ih seen j k hr]
        congr 1
        rw [decide_eq_decide]
        constructor
        · intro hm
          rcases List.mem_append.mp hm with hm | hm
          · exact List.mem_append.mpr (Or.inl hm)
          · exact List.mem_append.mpr
              (Or.inr (by simpa using List.mem_cons.mpr (Or.inr hm)))
        · intro hm
          rcases List.mem_append.mp hm with hm | hm
          · exact List.mem_append.mpr (Or.inl hm)
          · rcases List.mem_cons.mp (by simpa using hm) with hm | hm
            · subst hm; exact List.mem_append.mpr (Or.inl h0)
            · exact List.mem_append.mpr (Or.inr hm)
      · rw [show (markDupGo seen (k0 :: rest)).get? (j + 1) =
          (markDupGo (k0 :: seen) rest).get? j by simp [markDupGo, h0]]
        rw [ih (k0 :: seen) j k hr]
        congr 1
        rw [decide_eq_decide]
        constructor
        · intro hm
          rcases List.mem_append.mp hm with hm | hm
          · rcases List.mem_cons.mp hm with hm | hm
            · subst hm
              exact List.mem_append.mpr (Or.inr (by simp))
            · exact List.mem_append.mpr (Or.inl hm)
          · exact List.mem_append.mpr
              (Or.inr (by simpa using List.mem_cons.mpr (Or.inr hm)))
        · intro hm
          rcases List.mem_append.mp hm with hm | hm
          · exact List.mem_append.mpr (Or.inl (List.mem_cons.mpr (Or.inr hm)))
          · rcases List.mem_cons.mp (by simpa using hm) with hm | hm
            · subst hm
              exact List.mem_append.mpr (Or.inl (List.mem_cons.mpr (Or.inl rfl)))
            · exact List.mem_append.mpr (Or.inr hm)

theorem markDup_get? (keys : List Str) (j : Nat) (k : Str)
    (h : keys.get? j = some k) :
    (markDup keys).get? j = some (decide (k ∈ keys.take j)) := by
  rw [markDup, markDupGo_spec keys [] j k h]
  simp

theorem mem_take_exists (l : List Str) :
    ∀ (j : Nat) (k : Str), k ∈ l.take j ↔ ∃ i, i < j ∧ l.get? i = some k := by
  induction l with
  | nil =>
    intro j k
    simp
  | cons x xs ih =>
    intro j k
    cases j with
    | zero => simp
    | succ j =>
      simp only [List.take_succ_cons, List.mem_cons]
      constructor
      · intro h
        rcases h with h | h
        · exact ⟨0, by omega, by simp [h]⟩
        · obtain ⟨i, hi, hg⟩ := (ih j k).mp h
          exact ⟨i + 1, by omega, by simpa using hg⟩
      · intro ⟨i, hi, hg⟩
        cases i with
        | zero => exact Or.inl (by simpa using hg.symm)
        | succ i =>
          exact Or.inr ((ih j k).mpr ⟨i, by omega, by simpa using hg⟩)

theorem get?_zip_eq {α β : Type} :
    ∀ (l1 : List α) (l2 : List β) (j : Nat) (a : α) (b : β),
      l1.get? j = some a → l2.get? j = some b →
      (l1.zip l2).get? j = some (a, b) := by
  intro l1
  induction l1 with
  | nil => intro l2 j a b h; cases h
  | cons x xs ih =>
    intro l2 j a b h1 h2
    cases l2 with
    | nil => cases h2
    | cons y ys =>
      cases j with
      | zero =>
        have hx : x = a := by simpa using h1
        have hy : y = b := by simpa using h2
        simp [List.zip_cons_cons, hx, hy]
      | succ j =>
        have h1' : xs.get? j = some a := by simpa using h1
        have h2' : ys.get? j = some b := by simpa using h2
        simpa [List.zip_cons_cons] using ih ys j a b h1' h2'

theorem get?_zip_inv {α β : Type} :
    ∀ (l1 : List α) (l2 : List β) (j : Nat) (p : α × β),
      (l1.zip l2).get? j = some p →
      l1.get? j = some p.1 ∧ l2.get? j = some p.2 := by
  intro l1
  induction l1 with
  | nil => intro l2 j p h; cases h
  | cons x xs ih =>
    intro l2 j p h
    cases l2 with
    | nil => cases h
    | cons y ys =>
      cases j with
      | zero =>
        have : (x, y) = p := by simpa [List.zip_cons_cons] using h
        rw [← this]
        exact ⟨rfl, rfl⟩
      | succ j =>
        have h' : (xs.zip ys).get? j = some p := by
          simpa [List.zip_cons_cons] using h
        simpa using ih ys j p h'

theorem mem_dedupFirstGo {s : Str} :
    ∀ {l : List Str} {seen : List Str}, s ∈ dedupFirstGo seen l → s ∈ l := by
  intro l
  induction l with
  | nil => intro seen h; cases h
  | cons x xs ih =>
    intro seen h
    by_cases hx : x ∈ seen
    · rw [show dedupFirstGo seen (x :: xs) = dedupFirstGo seen xs by
        simp [dedupFirstGo, hx]] at h
      exact List.mem_cons.mpr (Or.inr (ih h))
    · rw [show dedupFirstGo seen (x :: xs) = x :: dedupFirstGo (x :: seen) xs
        by simp [dedupFirstGo, hx]] at h
      rcases List.mem_cons.mp h with h | h
      · exact List.mem_cons.mpr (Or.inl h)
      · exact List.mem_cons.mpr (Or.inr (ih h))

theorem keyAt_iff (rows : List InRow) (i : Nat) (k : Str) :
    (rows.map dupKeyCode).get? i = some k ↔
      ∃ r, rows.get? i = some r ∧ dupKeyCode r = k := by
  rw [List.get?_map]
  cases rows.get? i with
  | none => simp
  | some r => simp

/-- C4 amended: with the duplicate key as the code computes it, trimmed
and lowercased description joined to trimmed and lowercased vendor, a row
preceded by a row bearing the same key is emitted in its original
position with the sentinel cleaned input, empty audit columns and the
sentinel match entry, and its index is excluded from the persisted rows;
a row with no earlier bearer of its key is processed through the full
pipeline and, unless its cleaned text collides with the sentinel, through
the matcher; and every string the matcher is invoked on is the pipeline
output of some primary row, never the sentinel. -/
theorem c4_duplicate_suppression_amended (scA scB scC : Str → Str → Nat)
    (rows : List InRow) (syns : List (Str × Str)) (bl : List Str)
    (catalog : List CatRow) (j : Nat) (r : InRow)
    (hj : rows.get? j = some r) :
    ((∃ i, i < j ∧ ∃ r', rows.get? i = some r' ∧
        dupKeyCode r' = dupKeyCode r) →
      (process_files scA scB scC rows syns bl catalog).cleaned.get? j =
        some (str "NN") ∧
      (process_files scA scB scC rows syns bl catalog).applied.get? j =
        some [] ∧
      (process_files scA scB scC rows syns bl catalog).removedW.get? j =
        some [] ∧
      (process_files scA scB scC rows syns bl catalog).results.get? j =
        some none ∧
      j ∉ persisted_indices (process_files scA scB scC rows syns bl catalog)) ∧
    ((¬ ∃ i, i < j ∧ ∃ r', rows.get? i = some r' ∧
        dupKeyCode r' = dupKeyCode r) →
      (process_files scA scB scC rows syns bl catalog).cleaned.get? j =
        some (rowPipeline syns bl r.desc).1 ∧
      (process_files scA scB scC rows syns bl catalog).results.get? j =
        some (if (rowPipeline syns bl r.desc).1 = str "NN" then none
          else some (intelligent_fuzzy_match scA scB scC
            (rowPipeline syns bl r.desc).1 (catalog.map toLEntry)))) ∧
    (∀ s ∈ (process_files scA scB scC rows syns bl catalog).calls,
      s ≠ str "NN" ∧ ∃ i r', rows.get? i = some r' ∧
        (¬ ∃ i', i' < i ∧ ∃ r'', rows.get? i' = some r'' ∧
          dupKeyCode r'' = dupKeyCode r') ∧
        s = (rowPipeline syns bl r'.desc).1) := by
  have hpem := pemGo_spec
    (fun s => intelligent_fuzzy_match scA scB scC s (catalog.map toLEntry))
    (((rows.zip (markDup (rows.map dupKeyCode))).map (fun rd =>
      if rd.2 then (str "NN", ([] : Str), ([] : Str))
      else rowPipeline syns bl rd.1.desc)).map (fun x => x.1)) [] []
    (by intro p hp; cases hp) (by intro k; simp)
  have hres : (process_files scA scB scC rows syns bl catalog).results =
      (((rows.zip (markDup (rows.map dupKeyCode))).map (fun rd =>
        if rd.2 then (str "NN", ([] : Str), ([] : Str))
        else rowPipeline syns bl rd.1.desc)).map (fun x => x.1)).map
        (fun s => if s = str "NN" then none
          else some (intelligent_fuzzy_match scA scB scC s
            (catalog.map toLEntry))) := by
    show (pemGo _ _ []).1 = _
    rw [hpem]
  have hcalls : (process_files scA scB scC rows syns bl catalog).calls =
      dedupFirstGo []
        ((((rows.zip (markDup (rows.map dupKeyCode))).map (fun rd =>
          if rd.2 then (str "NN", ([] : Str), ([] : Str))
          else rowPipeline syns bl rd.1.desc)).map (fun x => x.1)).filter
          (fun s => !decide (s = str "NN"))) := by
    show (pemGo _ _ []).2 = _
    rw [hpem]
  have hkeyj : (rows.map dupKeyCode).get? j = some (dupKeyCode r) := by
    rw [List.get?_map, hj]
    rfl
  have hfl := markDup_get? (rows.map dupKeyCode) j (dupKeyCode r) hkeyj
  have hzipj := get?_zip_eq rows (markDup (rows.map dupKeyCode)) j r
    (decide (dupKeyCode r ∈ (rows.map dupKeyCode).take j)) hj hfl
  have htripj : ((rows.zip (markDup (rows.map dupKeyCode))).map (fun rd =>
      if rd.2 then (str "NN", ([] : Str), ([] : Str))
      else rowPipeline syns bl rd.1.desc)).get? j =
      some (if decide (dupKeyCode r ∈ (rows.map dupKeyCode).take j)
        then (str "NN", ([] : Str), ([] : Str))
        else rowPipeline syns bl r.desc) := by
    rw [List.get?_map, hzipj]
    rfl
  refine ⟨?_, ?_, ?_⟩
  · intro hdup
    obtain ⟨i, hi, r', hri, hkeq⟩ := hdup
    have hmem : dupKeyCode r ∈ (rows.map dupKeyCode).take j := by
      refine (mem_take_exists (rows.map dupKeyCode) j (dupKeyCode r)).mpr
        ⟨i, hi, ?_⟩
      rw [List.get?_map, hri]
      simp [hkeq]
    have hd : decide (dupKeyCode r ∈ (rows.map dupKeyCode).take j) = true :=
      by simpa using hmem
    rw [hd] at htripj
    simp only [if_pos rfl] at htripj
    have hcl : (process_files scA scB scC rows syns bl catalog).cleaned.get? j =
        some (str "NN") := by
      show ((((rows.zip (markDup (rows.map dupKeyCode))).map (fun rd =>
        if rd.2 then (str "NN", ([] : Str), ([] : Str))
        else rowPipeline syns bl rd.1.desc)).map (fun x => x.1)).get? j) = _
      rw [List.get?_map, htripj]
      rfl
    refine ⟨hcl, ?_, ?_, ?_, ?_⟩
    · show ((((rows.zip (markDup (rows.map dupKeyCode))).map (fun rd =>
        if rd.2 then (str "NN", ([] : Str), ([] : Str))
        else rowPipeline syns bl rd.1.desc)).map (fun x => x.2.1)).get? j) = _
      rw [List.get?_map, htripj]
      rfl
    · show ((((rows.zip (markDup (rows.map dupKeyCode))).map (fun rd =>
        if rd.2 then (str "NN", ([] : Str), ([] : Str))
        else rowPipeline syns bl rd.1.desc)).map (fun x => x.2.2)).get? j) = _
      rw [List.get?_map, htripj]
      rfl
    · rw [hres, List.get?_map, List.get?_map, htripj]
      rfl
    · intro hmem'
      have := List.mem_filter.mp hmem'
      rw [hcl] at this
      simp at this
  · intro hnodup
    have hmem : dupKeyCode r ∉ (rows.map dupKeyCode).take j := by
      intro hm
      obtain ⟨i, hi, hg⟩ :=
        (mem_take_exists (rows.map dupKeyCode) j (dupKeyCode r)).mp hm
      obtain ⟨r', hri, hkeq⟩ := (keyAt_iff rows i (dupKeyCode r)).mp hg
      exact hnodup ⟨i, hi, r', hri, hkeq⟩
    have hd : decide (dupKeyCode r ∈ (rows.map dupKeyCode).take j) = false :=
      by simpa using hmem
    rw [hd] at htripj
    simp only [Bool.false_eq_true, if_false] at htripj
    constructor
    · show ((((rows.zip (markDup (rows.map dupKeyCode))).map (fun rd =>
        if rd.2 then (str "NN", ([] : Str), ([] : Str))
        else rowPipeline syns bl rd.1.desc)).map (fun x => x.1)).get? j) = _
      rw [List.get?_map, htripj]
      rfl
    · rw [hres, List.get?_map, List.get?_map, htripj]
      rfl
  · intro s hs
    rw [hcalls] at hs
    have hsf := mem_dedupFirstGo hs
    have hsm := List.mem_filter.mp hsf
    have hsnn : s ≠ str "NN" := by simpa using hsm.2
    obtain ⟨i, hgi⟩ := List.get?_of_mem hsm.1
    rw [List.get?_map] at hgi
    obtain ⟨t, hti, hts⟩ := Option.map_eq_some'.mp hgi
    obtain ⟨rd, hrdi, hrdt⟩ := Option.map_eq_some'.mp (by
      rw [List.get?_map] at hti
      exact hti)
    have hrows := get?_zip_inv rows (markDup (rows.map dupKeyCode)) i rd hrdi
    have hkeyi : (rows.map dupKeyCode).get? i = some (dupKeyCode rd.1) := by
      rw [List.get?_map, hrows.1]
      rfl
    have hfli := markDup_get? (rows.map dupKeyCode) i (dupKeyCode rd.1) hkeyi
    have hflag : rd.2 = decide (dupKeyCode rd.1 ∈ (rows.map dupKeyCode).take i) := by
      rw [hrows.2] at hfli
      exact Option.some.inj hfli
    have hrdt2 : (if rd.2 = true then (str "NN", ([] : Str), ([] : Str))
        else rowPipeline syns bl rd.1.desc) = t := hrdt
    by_cases hb : rd.2 = true
    · rw [if_pos hb] at hrdt2
      rw [← hrdt2] at hts
      have hts' : str "NN" = s := hts
      exact absurd hts'.symm hsnn
    · have hb' : rd.2 = false := by simpa using hb
      rw [if_neg hb] at hrdt2
      refine ⟨hsnn, i, rd.1, hrows.1, ?_, ?_⟩
      · intro ⟨i', hi', r'', hri'', hkeq''⟩
        have : dupKeyCode rd.1 ∈ (rows.map dupKeyCode).take i := by
          refine (mem_take_exists (rows.map dupKeyCode) i
            (dupKeyCode rd.1)).mpr ⟨i', hi', ?_⟩
          rw [List.get?_map, hri'']
          simp [hkeq'']
        have hdec : decide (dupKeyCode rd.1 ∈
            (rows.map dupKeyCode).take i) = true := by simpa using this
        rw [hb'] at hflag
        rw [← hflag] at hdec
        simp at hdec
      · rw [← hts, ← hrdt2]

/-- Witness for the amended C4 theorem at a concrete batch in which the
second row bears the same trimmed lowercased key as the first: it is
emitted with the sentinel and excluded from persistence. -/
theorem c4_duplicate_suppression_amended_witness :
    (process_files token_sort_score part_ratio_score token_set_score
      [⟨str "a", str "v"⟩, ⟨str "A ", str "v"⟩] [] [] []).cleaned.get? 1 =
      some (str "NN") ∧
    1 ∉ persisted_indices (process_files token_sort_score part_ratio_score
      token_set_score [⟨str "a", str "v"⟩, ⟨str "A ", str "v"⟩] [] [] []) := by
  have h := (c4_duplicate_suppression_amended token_sort_score
    part_ratio_score token_set_score
    [⟨str "a", str "v"⟩, ⟨str "A ", str "v"⟩] [] [] [] 1 ⟨str "A ", str "v"⟩
    (by decide)).1 ⟨0, by omega, ⟨str "a", str "v"⟩, by decide, by decide⟩
  exact ⟨h.1, h.2.2.2.2⟩

/-- C4 counterexample: with the duplicate key computed exactly as the
claim words it, lowercasing without trimming, the two rows below have
distinct keys, so the claim makes the second row a primary row processed
normally; the code trims before lowercasing, finds the keys equal, and
emits the second row with the sentinel, unmatched and unpersisted. -/
theorem c4_duplicate_key_counterexample :
    dupKeySpec ⟨str "a", str "v"⟩ ≠ dupKeySpec ⟨str " a", str "v"⟩ ∧
    (process_files token_sort_score part_ratio_score token_set_score
      [⟨str "a", str "v"⟩, ⟨str " a", str "v"⟩] [] [] []).cleaned.get? 1 =
      some (str "NN") ∧
    (process_files token_sort_score part_ratio_score token_set_score
      [⟨str "a", str "v"⟩, ⟨str " a", str "v"⟩] [] [] []).results.get? 1 =
      some none ∧
    1 ∉ persisted_indices (process_files token_sort_score part_ratio_score
      token_set_score [⟨str "a", str "v"⟩, ⟨str " a", str "v"⟩] [] [] []) := by
  refine ⟨by decide, by decide, by decide, by decide⟩

/-- C8 amended: the failure paths reprocess_single_row actually takes
return the original row unchanged: whenever it reports failure the
returned row is the input row, and a blank description always produces
that failure return.  Rule-store read and write failures, by contrast,
are swallowed inside the helpers and do not make reprocessing fail. -/
theorem c8_reprocess_failure_returns_row_unchanged
    (scA scB scC : Str → Str → Nat) (w : World) (row : Row) (flag : Bool) :
    ((reprocess_single_row scA scB scC w row flag).success = false →
      (reprocess_single_row scA scB scC w row flag).row = row) ∧
    ((pyStrip row.vendor_product_description).isEmpty = true →
      (reprocess_single_row scA scB scC w row flag).success = false ∧
      (reprocess_single_row scA scB scC w row flag).row = row) := by
  by_cases hd : (pyStrip row.vendor_product_description).isEmpty = true
  · constructor
    · intro _
      simp [reprocess_single_row, hd]
    · intro _
      constructor
      · simp [reprocess_single_row, hd]
      · simp [reprocess_single_row, hd]
  · have hd' : (pyStrip row.vendor_product_description).isEmpty = false := by
      simpa using hd
    constructor
    · intro hsucc
      rw [show (reprocess_single_row scA scB scC w row flag).success = true by
        simp [reprocess_single_row, hd']] at hsucc
      cases hsucc
    · intro hcon
      rw [hcon] at hd'
      cases hd'

/-- C8 counterexample: a rule-store write failure during the annotation
step is ignored by reprocess_single_row: the write reports failure, yet
reprocessing succeeds and returns a row with overwritten enrichment
fields, not success false with the row unchanged as the claim states. -/
theorem c8_rule_store_failure_counterexample :
    update_synonyms_blacklist_from_row
      ⟨⟨[], []⟩, false, true, [], 7⟩
      ⟨str "roses", str "blacklist", str "junk", [], [], [], [], 0, [], [],
        [], [], [], [], [], 0⟩ =
      (⟨⟨[], []⟩, false, true, [], 7⟩, false) ∧
    (reprocess_single_row token_sort_score part_ratio_score token_set_score
      ⟨⟨[], []⟩, false, true, [], 7⟩
      ⟨str "roses", str "blacklist", str "junk", [], [], [], [], 0, [], [],
        [], [], [], [], [], 0⟩ true).success = true ∧
    (reprocess_single_row token_sort_score part_ratio_score token_set_score
      ⟨⟨[], []⟩, false, true, [], 7⟩
      ⟨str "roses", str "blacklist", str "junk", [], [], [], [], 0, [], [],
        [], [], [], [], [], 0⟩ true).row ≠
      ⟨str "roses", str "blacklist", str "junk", [], [], [], [], 0, [], [],
        [], [], [], [], [], 0⟩ := by
  refine ⟨by decide, by decide, by decide⟩

/-- Witness for the amended C8 theorem at a row with a blank description:
reprocessing fails and returns the row unchanged. -/
theorem c8_reprocess_failure_returns_row_unchanged_witness :
    (reprocess_single_row token_sort_score part_ratio_score token_set_score
      ⟨⟨[], []⟩, false, false, [], 3⟩
      ⟨str "  ", [], [], [], [], [], [], 5, [], [], [], [], [], [], [],
        0⟩ true).success = false ∧
    (reprocess_single_row token_sort_score part_ratio_score token_set_score
      ⟨⟨[], []⟩, false, false, [], 3⟩
      ⟨str "  ", [], [], [], [], [], [], 5, [], [], [], [], [], [], [],
        0⟩ true).row =
      ⟨str "  ", [], [], [], [], [], [], 5, [], [], [], [], [], [], [], 0⟩ :=
  (c8_reprocess_failure_returns_row_unchanged token_sort_score
    part_ratio_score token_set_score ⟨⟨[], []⟩, false, false, [], 3⟩
    ⟨str "  ", [], [], [], [], [], [], 5, [], [], [], [], [], [], [], 0⟩
    true).2 (by decide)

/-- C10: a blank or whitespace-only description makes reprocess_single_row
return failure with the row unchanged and without invoking the matcher,
but the annotation-driven rule mutation requested by the row has already
been applied and persisted before that return: the returned world is the
world after the mutation, a fresh blacklist word has been appended, and a
parsed synonym pair has been merged. -/
theorem c10_blank_description_rule_mutation_not_atomic
    (scA scB scC : Str → Str → Nat) (w : World) (row : Row)
    (hd : (pyStrip row.vendor_product_description).isEmpty = true) :
    (reprocess_single_row scA scB scC w row true).success = false ∧
    (reprocess_single_row scA scB scC w row true).row = row ∧
    (reprocess_single_row scA scB scC w row true).matcherCalled = false ∧
    (reprocess_single_row scA scB scC w row true).world =
      (update_synonyms_blacklist_from_row w row).1 ∧
    (lowerAll (pyStrip row.action) = str "blacklist" →
      (pyStrip row.word).isEmpty = false →
      w.readFails = false → w.writeFails = false →
      pyStrip row.word ∉ w.rules.blacklist →
      (reprocess_single_row scA scB scC w row true).world.rules.blacklist =
        w.rules.blacklist ++ [pyStrip row.word]) ∧
    (lowerAll (pyStrip row.action) = str "synonym" →
      ':' ∈ pyStrip row.word →
      (pyStrip row.word).isEmpty = false →
      w.readFails = false → w.writeFails = false →
      (stripQuotes (pyStrip (splitColon1 (pyStrip row.word)).1)).isEmpty =
        false →
      (stripQuotes (pyStrip (splitColon1 (pyStrip row.word)).2)).isEmpty =
        false →
      (reprocess_single_row scA scB scC w row true).world.rules.synonyms =
        dictSet w.rules.synonyms
          (stripQuotes (pyStrip (splitColon1 (pyStrip row.word)).1))
          (stripQuotes (pyStrip (splitColon1 (pyStrip row.word)).2))) := by
  have hworld : (reprocess_single_row scA scB scC w row true).world =
      (update_synonyms_blacklist_from_row w row).1 := by
    simp [reprocess_single_row, hd]
  refine ⟨by simp [reprocess_single_row, hd],
    by simp [reprocess_single_row, hd],
    by simp [reprocess_single_row, hd], hworld, ?_, ?_⟩
  · intro hact hword hread hwrite hmem
    rw [hworld]
    have hane : (lowerAll (pyStrip row.action)).isEmpty = false := by
      rw [hact]
      rfl
    rw [update_synonyms_blacklist_from_row]
    simp only [hane, hword, Bool.or_self, Bool.false_eq_true, if_false]
    simp only [get_client_synonyms_blacklist, hread, Bool.false_eq_true,
      if_false]
    rw [hact]
    rw [if_neg (fun hcon => absurd hcon.1 (by decide))]
    rw [if_pos rfl, if_pos hmem]
    simp [update_client_synonyms_blacklist, hwrite]
  · intro hact hcolon hword hread hwrite ho hr
    rw [hworld]
    have hane : (lowerAll (pyStrip row.action)).isEmpty = false := by
      rw [hact]
      rfl
    rw [update_synonyms_blacklist_from_row]
    simp only [hane, hword, Bool.or_self, Bool.false_eq_true, if_false]
    simp only [get_client_synonyms_blacklist, hread, Bool.false_eq_true,
      if_false]
    rw [hact]
    rw [if_pos ⟨rfl, hcolon⟩]
    rw [if_pos ⟨by simpa using ho, by simpa using hr⟩]
    simp [update_client_synonyms_blacklist, hwrite]

/-- Witness for the C10 theorem at a row with a blank description and a
blacklist annotation: reprocessing fails, the row is unchanged, the
matcher never runs, and the store now carries the new blacklist word. -/
theorem c10_blank_description_rule_mutation_not_atomic_witness :
    (reprocess_single_row token_sort_score part_ratio_score token_set_score
      ⟨⟨[(str "x", str "y")], [str "old"]⟩, false, false, [], 7⟩
      ⟨str "   ", str "blacklist", str "junk", [], [], [], [], 0, [], [],
        [], [], [], [], [], 0⟩ true).success = false ∧
    (reprocess_single_row token_sort_score part_ratio_score token_set_score
      ⟨⟨[(str "x", str "y")], [str "old"]⟩, false, false, [], 7⟩
      ⟨str "   ", str "blacklist", str "junk", [], [], [], [], 0, [], [],
        [], [], [], [], [], 0⟩ true).matcherCalled = false ∧
    (reprocess_single_row token_sort_score part_ratio_score token_set_score
      ⟨⟨[(str "x", str "y")], [str "old"]⟩, false, false, [], 7⟩
      ⟨str "   ", str "blacklist", str "junk", [], [], [], [], 0, [], [],
        [], [], [], [], [], 0⟩ true).world.rules.blacklist =
      [str "old"] ++ [str "junk"] := by
  have h := c10_blank_description_rule_mutation_not_atomic token_sort_score
    part_ratio_score token_set_score
    ⟨⟨[(str "x", str "y")], [str "old"]⟩, false, false, [], 7⟩
    ⟨str "   ", str "blacklist", str "junk", [], [], [], [], 0, [], [],
      [], [], [], [], [], 0⟩ (by decide)
  exact ⟨h.1, h.2.2.1,
    h.2.2.2.2.1 (by decide) (by decide) rfl rfl (by decide)⟩
